import Mathlib

/-!
# Framed message transport (`demos/holden/protocol.c`)

Shallow embedding of `send_message` and `recv_message` and proofs of their
framing properties.

Conventions of the embedding:

* `write(2)` / `read(2)` are the environment.  A run is driven by a `Script`:
  the i-th entry answers the i-th call of the primitive, as a function of the
  requested byte count, with the value returned and the value `errno` holds
  afterwards.  When the script has no entry left for a call the code is about
  to make, the run stops in status `pending` carrying the arguments of that
  call; a script of `n` entries thus bounds a run to `n` calls.
* The inbound byte stream of `read` is a list of bytes, those that have
  arrived or would arrive; a call returning `n > 0` moves the next `n` bytes
  of the stream into the buffer at the offset it was given.  End of stream is
  an answer `0` of the script, not the end of the list.
* `ssize_t` and `size_t` are the 64-bit types of the LP64 target: conversions
  and additions wrap explicitly (`toSsize`, `toSize`).  Theorems that need the
  sizes to be representable say so (`msgSize L m < 2^63`).
* `protocol.h` is not among the sources, so the header layout is a parameter
  (`Layout`): the header size and the decoder of the `length` field.
* `sent` and `calls` record what a run did (bytes accepted by the stream,
  calls issued); the C code keeps no such record.
-/

namespace Holden

/-- Bytes; the transport looks at their values only to decode `header.length`. -/
abbrev Byte := Nat

/-- Header layout declared in `protocol.h` (`message_header_t`), taken as a
parameter: `hdrSize` is `sizeof(message_header_t)` and `length` decodes the
unsigned field `header.length` from the `hdrSize` header bytes. -/
structure Layout where
  hdrSize : Nat
  length : List Byte → Nat

/-- Value of `EINTR` in `<errno.h>` on Linux. -/
def EINTR : Int := 4

/-- Conversion of an integer value to `size_t` (64-bit unsigned). -/
def toSize (i : Int) : Nat := (i % 18446744073709551616).toNat

/-- Conversion of an integer value to `ssize_t` (64-bit two's complement). -/
def toSsize (i : Int) : Int :=
  (i + 9223372036854775808) % 18446744073709551616 - 9223372036854775808

/-- What one call of `write` or `read` reports: the value returned and the
value of `errno` after the call. -/
structure Resp where
  result : Int
  errno : Int
deriving DecidableEq, Repr

/-- Answers of the primitive, one per call, each a function of the requested
count. -/
abbrev Script := List (Nat → Resp)

/-- One call of the primitive as issued by the code: the offset added to the
`data` pointer, the requested count, and what the call reported. -/
structure Call where
  off : Int
  count : Nat
  result : Int
  errno : Int
deriving DecidableEq, Repr

/-- A call that returned `-1` with `errno == EINTR`. -/
def Call.interrupted (c : Call) : Bool :=
  decide (c.result = -1) && decide (c.errno = EINTR)

/-- How a transfer loop was left: its condition became false (`done`), it
executed `return -1` (`failed`), or the script ended while the loop was about
to call the primitive (`starved`). -/
inductive Exit
  | done
  | failed
  | starved
deriving DecidableEq, Repr

/-- Status of a run of `send_message` / `recv_message`: the value returned, or
the arguments (offset, count) of the primitive call left unanswered. -/
inductive Status
  | returned (v : Int)
  | pending (off : Int) (count : Nat)
deriving DecidableEq, Repr

/-! ## send_message -/

/-- What a run of the loop of `send_message` leaves: how the loop was left,
the final `bytes_sent`, the bytes the stream accepted and the calls issued,
both in order. -/
structure SendOut where
  exit : Exit
  bytes_sent : Int
  sent : List Byte
  calls : List Call
deriving DecidableEq, Repr

/-- The loop `while (bytes_sent < total_size)` of `send_message`
(protocol.c lines 23-32), started with the given value of `bytes_sent`.
`msg` is the memory at `(const char *)msg`. -/
def send_loop (msg : List Byte) (total_size : Int) : Int → Script → SendOut
  | bytes_sent, [] =>
    if bytes_sent < total_size then ⟨Exit.starved, bytes_sent, [], []⟩
    else ⟨Exit.done, bytes_sent, [], []⟩
  | bytes_sent, f :: rest =>
    if bytes_sent < total_size then
      let count := toSize (total_size - bytes_sent)
      let r := f count
      let call : Call := ⟨bytes_sent, count, r.result, r.errno⟩
      if r.result ≤ 0 then
        if r.result = -1 ∧ r.errno = EINTR then
          let o := send_loop msg total_size bytes_sent rest
          { o with calls := call :: o.calls }
        else
          ⟨Exit.failed, bytes_sent, [], [call]⟩
      else
        let o := send_loop msg total_size (toSsize (bytes_sent + r.result)) rest
        { o with
          sent := (msg.drop bytes_sent.toNat).take r.result.toNat ++ o.sent
          calls := call :: o.calls }
    else ⟨Exit.done, bytes_sent, [], []⟩

/-- Outcome of a run of `send_message`. -/
structure SendRun where
  status : Status
  sent : List Byte
  calls : List Call
deriving DecidableEq, Repr

/-- The value `total_size` of `send_message` (line 20):
`sizeof(message_header_t) + msg->header.length` computed in `size_t` and
converted to `ssize_t`. -/
def send_total (L : Layout) (msg : List Byte) : Int :=
  toSsize (((L.hdrSize + L.length (msg.take L.hdrSize)) % 18446744073709551616 : Nat) : Int)

/-- Status of a run from the way the last loop entered was left: `return 0`
after the loop, `return -1` inside it, or the call left unanswered. -/
def exit_status (e : Exit) (off : Int) (count : Nat) : Status :=
  match e with
  | Exit.done => Status.returned 0
  | Exit.failed => Status.returned (-1)
  | Exit.starved => Status.pending off count

/-- Embedding of `int send_message(int sockfd, const message_t *msg)`. -/
def send_message (L : Layout) (msg : List Byte) (script : Script) : SendRun :=
  let total_size := send_total L msg
  let o := send_loop msg total_size 0 script
  ⟨exit_status o.exit o.bytes_sent (toSize (total_size - o.bytes_sent)), o.sent, o.calls⟩

/-! ## recv_message -/

/-- Effect of a `read` that stored `bs` at offset `off` of the memory at
`(char *)msg`; bytes stored beyond the current end extend the list. -/
def store (buf : List Byte) (off : Nat) (bs : List Byte) : List Byte :=
  buf.take off ++ bs ++ buf.drop (off + bs.length)

/-- What a run of a read loop of `recv_message` leaves: how the loop was left,
the final `bytes_received`, the memory at `msg`, the bytes still unread in the
stream, the calls issued and the script left for the code that follows. -/
structure RecvOut where
  exit : Exit
  bytes_received : Int
  buf : List Byte
  stream : List Byte
  calls : List Call
  rest : Script

/-- The two read loops of `recv_message` (lines 41-51 and 54-64) have the same
body and differ in the bound only, which is `limit buf` in `size_t`:
`sizeof(message_header_t)` for the header loop and
`sizeof(message_header_t) + msg->header.length` (read from the buffer at each
evaluation) for the body loop.  The comparison with `bytes_received` is made
in `size_t`. -/
def recv_loop (limit : List Byte → Nat) : Int → List Byte → List Byte → Script → RecvOut
  | bytes_received, buf, stream, [] =>
    if toSize bytes_received < limit buf then ⟨Exit.starved, bytes_received, buf, stream, [], []⟩
    else ⟨Exit.done, bytes_received, buf, stream, [], []⟩
  | bytes_received, buf, stream, f :: rest =>
    if toSize bytes_received < limit buf then
      let count := toSize ((limit buf : Int) - (toSize bytes_received : Int))
      let r := f count
      let call : Call := ⟨bytes_received, count, r.result, r.errno⟩
      if r.result ≤ 0 then
        if r.result = -1 ∧ r.errno = EINTR then
          let o := recv_loop limit bytes_received buf stream rest
          { o with calls := call :: o.calls }
        else
          ⟨Exit.failed, bytes_received, buf, stream, [call], rest⟩
      else
        let o := recv_loop limit (toSsize (bytes_received + r.result))
          (store buf bytes_received.toNat (stream.take r.result.toNat))
          (stream.drop r.result.toNat) rest
        { o with calls := call :: o.calls }
    else ⟨Exit.done, bytes_received, buf, stream, [], f :: rest⟩

/-- Bound of the header loop: `sizeof(message_header_t)`. -/
def hdr_limit (L : Layout) : List Byte → Nat := fun _ => L.hdrSize

/-- Bound of the body loop: `sizeof(message_header_t) + msg->header.length`
in `size_t`, with `header.length` read from the buffer. -/
def body_limit (L : Layout) : List Byte → Nat :=
  fun buf => (L.hdrSize + L.length (buf.take L.hdrSize)) % 18446744073709551616

/-- Outcome of a run of `recv_message`: status, final memory at `msg`, bytes
left in the stream, calls issued. -/
structure RecvRun where
  status : Status
  buf : List Byte
  stream : List Byte
  calls : List Call
deriving DecidableEq, Repr

/-- Count a read loop with bound `limit` requests in the given state. -/
def recv_count (limit : List Byte → Nat) (bytes_received : Int) (buf : List Byte) : Nat :=
  toSize ((limit buf : Int) - (toSize bytes_received : Int))

/-- Embedding of `int recv_message(int sockfd, message_t *msg)`.  `buf` is the
initial content of the memory at `msg`, `stream` the inbound bytes. -/
def recv_message (L : Layout) (buf stream : List Byte) (script : Script) : RecvRun :=
  let h := recv_loop (hdr_limit L) 0 buf stream script
  match h.exit with
  | Exit.done =>
    if L.length (h.buf.take L.hdrSize) > 0 then
      let b := recv_loop (body_limit L) h.bytes_received h.buf h.stream h.rest
      ⟨exit_status b.exit b.bytes_received (recv_count (body_limit L) b.bytes_received b.buf),
        b.buf, b.stream, h.calls ++ b.calls⟩
    else ⟨Status.returned 0, h.buf, h.stream, h.calls⟩
  | e =>
    ⟨exit_status e h.bytes_received (recv_count (hdr_limit L) h.bytes_received h.buf),
      h.buf, h.stream, h.calls⟩

/-! ## Scripts and layouts used in examples -/

/-- A primitive call that transfers one byte. -/
def oneByte : Nat → Resp := fun _ => ⟨1, 0⟩

/-- A primitive call that transfers everything requested. -/
def allBytes : Nat → Resp := fun c => ⟨c, 0⟩

/-- A primitive call that transfers at most `k` bytes. -/
def upTo (k : Nat) : Nat → Resp := fun c => ⟨min k c, 0⟩

/-- A primitive call interrupted by a signal: `-1` with `errno == EINTR`. -/
def eintr : Nat → Resp := fun _ => ⟨-1, EINTR⟩

/-- A primitive call returning `0` (end of stream for `read`). -/
def zero (e : Int) : Nat → Resp := fun _ => ⟨0, e⟩

/-- A primitive call failing with `errno = e`. -/
def fault (e : Int) : Nat → Resp := fun _ => ⟨-1, e⟩

/-- A two-byte header `[type, length]`. -/
def demoLayout : Layout := ⟨2, fun h => h.getD 1 0⟩

/-! ## The control skeleton shared by the three loops -/

/-- What a run of the skeleton leaves: exit, final position, calls. -/
structure Skel where
  exit : Exit
  pos : Nat
  calls : List Call
deriving DecidableEq, Repr

/-- The transfer loop on natural numbers: position `a` advances towards the
bound `T`; each call requests `T - a`.  Within the range of `ssize_t` and with
a primitive that never transfers more than requested, the loops of
`send_message` and `recv_message` follow it (`send_loop_skel`,
`recv_loop_skel`). -/
def skel (T : Nat) : Nat → Script → Skel
  | a, [] => if a < T then ⟨Exit.starved, a, []⟩ else ⟨Exit.done, a, []⟩
  | a, f :: rest =>
    if a < T then
      let r := f (T - a)
      let call : Call := ⟨a, T - a, r.result, r.errno⟩
      if r.result ≤ 0 then
        if r.result = -1 ∧ r.errno = EINTR then
          let o := skel T a rest
          { o with calls := call :: o.calls }
        else ⟨Exit.failed, a, [call]⟩
      else
        let o := skel T (a + r.result.toNat) rest
        { o with calls := call :: o.calls }
    else ⟨Exit.done, a, []⟩

/-- The primitive never transfers more than the requested count. -/
def Bounded (s : Script) : Prop := ∀ f ∈ s, ∀ c : Nat, 0 < c → (f c).result ≤ c

/-- Every call of the primitive transfers between one byte and the requested
count (no interruption, no failure, no end of stream). -/
def Chunked (s : Script) : Prop :=
  ∀ f ∈ s, ∀ c : Nat, 0 < c → 1 ≤ (f c).result ∧ (f c).result ≤ c

/-- The calls start at position `a`, each one at the position the transfers
before it have reached, and end at position `b`: the transferred ranges are
adjacent, in order, without gap or overlap. -/
def tiles : Nat → List Call → Nat → Prop
  | a, [], b => a = b
  | a, c :: cs, b => c.off = a ∧ tiles (a + c.result.toNat) cs b

instance tiles_decidable : ∀ a cs b, Decidable (tiles a cs b)
  | a, [], b => inferInstanceAs (Decidable (a = b))
  | a, c :: cs, b =>
    have := tiles_decidable (a + c.result.toNat) cs b
    inferInstanceAs (Decidable (c.off = a ∧ tiles (a + c.result.toNat) cs b))

/-- Number of bytes the calls transferred. -/
def accepted (cs : List Call) : Nat := (cs.map (fun c => c.result.toNat)).sum

/-- The calls that were not interrupted. -/
def completed (cs : List Call) : List Call := cs.filter (fun c => !c.interrupted)

/-- Script `s2` is script `s1` with interrupted calls inserted. -/
inductive EintrInserted : Script → Script → Prop
  | nil : EintrInserted [] []
  | keep (f : Nat → Resp) {s1 s2 : Script} : EintrInserted s1 s2 → EintrInserted (f :: s1) (f :: s2)
  | ins {s1 s2 : Script} : EintrInserted s1 s2 → EintrInserted s1 (eintr :: s2)

/-- Number of bytes of the message that starts the byte sequence `m`:
`sizeof(message_header_t) + header.length`, with the header in the first
`sizeof(message_header_t)` bytes of `m`. -/
def msgSize (L : Layout) (m : List Byte) : Nat := L.hdrSize + L.length (m.take L.hdrSize)

/-- Run of `send_message` expressed with the skeleton. -/
def send_skel (L : Layout) (msg : List Byte) (s : Script) : SendRun :=
  let k := skel (msgSize L msg) 0 s
  ⟨exit_status k.exit k.pos (msgSize L msg - k.pos), msg.take k.pos, k.calls⟩

/-- Run of `recv_message` expressed with the skeleton: a header phase towards
`sizeof(message_header_t)` and, when it completes with a positive `length`, a
body phase towards `msgSize`. -/
def recv_skel (L : Layout) (buf S : List Byte) (s : Script) : RecvRun :=
  let h := skel L.hdrSize 0 s
  match h.exit with
  | Exit.done =>
    if L.length (S.take L.hdrSize) > 0 then
      let b := skel (msgSize L S) L.hdrSize (s.drop h.calls.length)
      ⟨exit_status b.exit b.pos (msgSize L S - b.pos), store buf 0 (S.take b.pos),
        S.drop b.pos, h.calls ++ b.calls⟩
    else ⟨Status.returned 0, store buf 0 (S.take L.hdrSize), S.drop L.hdrSize, h.calls⟩
  | e =>
    ⟨exit_status e h.pos (L.hdrSize - h.pos), store buf 0 (S.take h.pos), S.drop h.pos, h.calls⟩

/-- Continuing a starved loop of `send_message` with further answers. -/
def send_resume (msg : List Byte) (T : Int) (o : SendOut) (more : Script) : SendOut :=
  match o.exit with
  | Exit.starved =>
    let o2 := send_loop msg T o.bytes_sent more
    ⟨o2.exit, o2.bytes_sent, o.sent ++ o2.sent, o.calls ++ o2.calls⟩
  | _ => o

/-- Continuing a read loop of `recv_message` with further answers. -/
def recv_resume (limit : List Byte → Nat) (o : RecvOut) (more : Script) : RecvOut :=
  match o.exit with
  | Exit.starved =>
    let o2 := recv_loop limit o.bytes_received o.buf o.stream more
    ⟨o2.exit, o2.bytes_received, o2.buf, o2.stream, o.calls ++ o2.calls, o2.rest⟩
  | _ => { o with rest := o.rest ++ more }

/-- Header calls lie below `sizeof(message_header_t)` and request what the
header still misses; body calls lie at or above it and request what the
message still misses. -/
def phaseCall (H T : Nat) (c : Call) : Prop :=
  ∃ p : Nat, c.off = p ∧
    ((p < H ∧ c.count = H - p ∧ p + c.result.toNat ≤ H) ∨
     (H ≤ p ∧ p < T ∧ c.count = T - p ∧ p + c.result.toNat ≤ T))

/-! ## Arithmetic of the machine types -/

theorem toSize_natCast (n : Nat) (h : n < 18446744073709551616) : toSize (n : Int) = n := by
  unfold toSize
  omega

theorem toSsize_natCast (n : Nat) (h : n < 9223372036854775808) : toSsize (n : Int) = n := by
  unfold toSsize
  omega

theorem bounded_tail {f : Nat → Resp} {s : Script} (h : Bounded (f :: s)) : Bounded s :=
  fun g hg => h g (List.mem_cons_of_mem _ hg)

theorem chunked_tail {f : Nat → Resp} {s : Script} (h : Chunked (f :: s)) : Chunked s :=
  fun g hg => h g (List.mem_cons_of_mem _ hg)

theorem chunked_bounded {s : Script} (h : Chunked s) : Bounded s :=
  fun f hf c hc => (h f hf c hc).2

/-! ## Properties of the skeleton -/

/-- Case analysis and induction along a run of the skeleton. -/
theorem skel_induct (T : Nat) (P : Nat → Script → Skel → Prop)
    (hstarved : ∀ a, a < T → P a [] ⟨Exit.starved, a, []⟩)
    (hdone : ∀ a s, ¬ a < T → P a s ⟨Exit.done, a, []⟩)
    (hintr : ∀ a f rest, a < T → (f (T - a)).result = -1 → (f (T - a)).errno = EINTR →
      P a rest (skel T a rest) →
      P a (f :: rest) ⟨(skel T a rest).exit, (skel T a rest).pos,
        ⟨a, T - a, (f (T - a)).result, (f (T - a)).errno⟩ :: (skel T a rest).calls⟩)
    (hfail : ∀ a f rest, a < T → (f (T - a)).result ≤ 0 →
      ¬ ((f (T - a)).result = -1 ∧ (f (T - a)).errno = EINTR) →
      P a (f :: rest) ⟨Exit.failed, a, [⟨a, T - a, (f (T - a)).result, (f (T - a)).errno⟩]⟩)
    (hxfer : ∀ a f rest, a < T → 0 < (f (T - a)).result →
      P (a + (f (T - a)).result.toNat) rest (skel T (a + (f (T - a)).result.toNat) rest) →
      P a (f :: rest) ⟨(skel T (a + (f (T - a)).result.toNat) rest).exit,
        (skel T (a + (f (T - a)).result.toNat) rest).pos,
        ⟨a, T - a, (f (T - a)).result, (f (T - a)).errno⟩ ::
          (skel T (a + (f (T - a)).result.toNat) rest).calls⟩) :
    ∀ (s : Script) (a : Nat), P a s (skel T a s) := by
  intro s
  induction s with
  | nil =>
    intro a
    unfold skel
    by_cases h : a < T
    · simp only [h, if_true]; exact hstarved a h
    · simp only [h, if_false]; exact hdone a [] h
  | cons f rest ih =>
    intro a
    unfold skel
    by_cases h : a < T
    · simp only [h, if_true]
      by_cases h0 : (f (T - a)).result ≤ 0
      · simp only [h0, if_true]
        by_cases hi : (f (T - a)).result = -1 ∧ (f (T - a)).errno = EINTR
        · simp only [if_pos hi]
          exact hintr a f rest h hi.1 hi.2 (ih a)
        · simp only [if_neg hi]
          exact hfail a f rest h h0 hi
      · simp only [h0, if_false]
        exact hxfer a f rest h (by omega) (ih _)
    · simp only [h, if_false]
      exact hdone a (f :: rest) h

theorem skel_pos_le (T : Nat) (s : Script) (a : Nat) (hb : Bounded s) (ha : a ≤ T) :
    a ≤ (skel T a s).pos ∧ (skel T a s).pos ≤ T := by
  revert hb ha
  refine skel_induct T (fun a s o => Bounded s → a ≤ T → a ≤ o.pos ∧ o.pos ≤ T)
    ?_ ?_ ?_ ?_ ?_ s a
  · intro a _ _ ha; exact ⟨le_refl _, ha⟩
  · intro a s _ _ ha; exact ⟨le_refl _, ha⟩
  · intro a f rest _ _ _ ih hb ha; exact ih (bounded_tail hb) ha
  · intro a f rest _ _ _ _ ha; exact ⟨le_refl _, ha⟩
  · intro a f rest h hpos ih hb ha
    have hle := hb f (List.mem_cons_self _ _) (T - a) (by omega)
    have := ih (bounded_tail hb) (by omega)
    simp only at this ⊢
    omega

theorem skel_exit_done (T : Nat) (s : Script) (a : Nat) :
    ((skel T a s).exit = Exit.done → T ≤ (skel T a s).pos) ∧
    ((skel T a s).exit ≠ Exit.done → (skel T a s).pos < T) := by
  refine skel_induct T (fun _ _ o => (o.exit = Exit.done → T ≤ o.pos) ∧
    (o.exit ≠ Exit.done → o.pos < T)) ?_ ?_ ?_ ?_ ?_ s a
  · intro a h; simp [h]
  · intro a s h; simp; omega
  · intro a f rest _ _ _ ih; exact ih
  · intro a f rest h _ _; simp [h]
  · intro a f rest _ _ ih; exact ih

theorem skel_tiles (T : Nat) (s : Script) (a : Nat) :
    tiles a (skel T a s).calls (skel T a s).pos := by
  refine skel_induct T (fun a _ o => tiles a o.calls o.pos) ?_ ?_ ?_ ?_ ?_ s a
  · intro a _; simp [tiles]
  · intro a s _; simp [tiles]
  · intro a f rest _ hr _ ih; simp [tiles, hr]; exact ih
  · intro a f rest _ h0 _
    have : (f (T - a)).result.toNat = 0 := by omega
    simp [tiles, this]
  · intro a f rest _ _ ih; simp [tiles]; exact ih

theorem skel_calls (T : Nat) (s : Script) (a : Nat) :
    ∀ c ∈ (skel T a s).calls, ∃ p : Nat, c.off = p ∧ a ≤ p ∧ p < T ∧ c.count = T - p := by
  refine skel_induct T (fun a _ o => ∀ c ∈ o.calls, ∃ p : Nat, c.off = p ∧ a ≤ p ∧ p < T ∧
    c.count = T - p) ?_ ?_ ?_ ?_ ?_ s a
  · intro a _ c hc; simp at hc
  · intro a s _ c hc; simp at hc
  · intro a f rest h _ _ ih c hc
    simp only [List.mem_cons] at hc
    rcases hc with rfl | hc
    · exact ⟨a, rfl, le_refl _, h, rfl⟩
    · exact ih c hc
  · intro a f rest h _ _ c hc
    simp only [List.mem_singleton] at hc
    subst hc
    exact ⟨a, rfl, le_refl _, h, rfl⟩
  · intro a f rest h _ ih c hc
    simp only [List.mem_cons] at hc
    rcases hc with rfl | hc
    · exact ⟨a, rfl, le_refl _, h, rfl⟩
    · obtain ⟨p, h1, h2, h3, h4⟩ := ih c hc
      exact ⟨p, h1, by omega, h3, h4⟩

theorem skel_calls_bounded (T : Nat) (s : Script) (a : Nat) (hb : Bounded s) :
    ∀ c ∈ (skel T a s).calls, c.result ≤ c.count := by
  revert hb
  refine skel_induct T (fun _ s o => Bounded s → ∀ c ∈ o.calls, c.result ≤ c.count)
    ?_ ?_ ?_ ?_ ?_ s a
  · intro a _ _ c hc; simp at hc
  · intro a s _ _ c hc; simp at hc
  · intro a f rest h hr _ ih hb c hc
    simp only [List.mem_cons] at hc
    rcases hc with rfl | hc
    · simp only [hr]; omega
    · exact ih (bounded_tail hb) c hc
  · intro a f rest h h0 _ hb c hc
    simp only [List.mem_singleton] at hc
    subst hc
    simp only; omega
  · intro a f rest h _ ih hb c hc
    simp only [List.mem_cons] at hc
    rcases hc with rfl | hc
    · exact hb f (List.mem_cons_self _ _) (T - a) (by omega)
    · exact ih (bounded_tail hb) c hc

theorem skel_calls_length (T : Nat) (s : Script) (a : Nat) :
    (skel T a s).calls.length ≤ s.length ∧
    ((skel T a s).exit = Exit.starved → (skel T a s).calls.length = s.length) := by
  refine skel_induct T (fun _ s o => o.calls.length ≤ s.length ∧
    (o.exit = Exit.starved → o.calls.length = s.length)) ?_ ?_ ?_ ?_ ?_ s a
  · intro a _; simp
  · intro a s _; simp
  · intro a f rest _ _ _ ih; simp; exact ih
  · intro a f rest _ _ _; simp
  · intro a f rest _ _ ih; simp; exact ih

theorem skel_chunked (T : Nat) (s : Script) (a : Nat) (hp : Chunked s) (ha : a ≤ T)
    (hlen : T - a ≤ s.length) : (skel T a s).exit = Exit.done := by
  revert hp ha hlen
  refine skel_induct T (fun a s o => Chunked s → a ≤ T → T - a ≤ s.length → o.exit = Exit.done)
    ?_ ?_ ?_ ?_ ?_ s a
  · intro a h _ _ hlen; simp at hlen; omega
  · intro a s _ _ _ _; rfl
  · intro a f rest h hr _ _ hp _ _
    have := (hp f (List.mem_cons_self _ _) (T - a) (by omega)).1
    omega
  · intro a f rest h h0 _ hp _ _
    have := (hp f (List.mem_cons_self _ _) (T - a) (by omega)).1
    omega
  · intro a f rest h hpos ih hp ha hlen
    have := hp f (List.mem_cons_self _ _) (T - a) (by omega)
    simp only [List.length_cons] at hlen
    exact ih (chunked_tail hp) (by omega) (by omega)

theorem skel_completed (T : Nat) (s : Script) (a : Nat) (hb : Bounded s) (ha : a ≤ T) :
    (completed (skel T a s).calls).length + a ≤
      (skel T a s).pos + (if (skel T a s).exit = Exit.failed then 1 else 0) := by
  revert hb ha
  refine skel_induct T (fun a s o => Bounded s → a ≤ T →
    (completed o.calls).length + a ≤ o.pos + (if o.exit = Exit.failed then 1 else 0))
    ?_ ?_ ?_ ?_ ?_ s a
  · intro a _ _ _; simp [completed]
  · intro a s _ _ _; simp [completed]
  · intro a f rest _ hr he ih hb ha
    have := ih (bounded_tail hb) ha
    simpa [completed, Call.interrupted, hr, he] using this
  · intro a f rest _ _ _ _ _
    have := List.length_filter_le (fun c : Call => !c.interrupted)
      [⟨a, T - a, (f (T - a)).result, (f (T - a)).errno⟩]
    simp only [completed, List.length_singleton, if_true] at this ⊢
    omega
  · intro a f rest h hpos ih hb ha
    have hle := hb f (List.mem_cons_self _ _) (T - a) (by omega)
    have := ih (bounded_tail hb) (by omega)
    have hne : (f (T - a)).result ≠ -1 := by omega
    simp only [completed, Call.interrupted, hne, decide_False, Bool.false_and, Bool.not_false,
      List.filter_cons_of_pos, List.length_cons] at this ⊢
    omega

theorem tiles_append : ∀ (cs1 cs2 : List Call) (a b c : Nat),
    tiles a cs1 b → tiles b cs2 c → tiles a (cs1 ++ cs2) c := by
  intro cs1
  induction cs1 with
  | nil => intro cs2 a b c h1 h2; simp [tiles] at h1; subst h1; simpa using h2
  | cons x xs ih =>
    intro cs2 a b c h1 h2
    simp only [tiles, List.cons_append] at h1 ⊢
    exact ⟨h1.1, ih cs2 _ b c h1.2 h2⟩

theorem tiles_accepted : ∀ (cs : List Call) (a b : Nat), tiles a cs b → a + accepted cs = b := by
  intro cs
  induction cs with
  | nil => intro a b h; simpa [tiles, accepted] using h
  | cons x xs ih =>
    intro a b h
    have := ih _ b h.2
    simp only [accepted, List.map_cons, List.sum_cons] at this ⊢
    omega

/-! ## The loops follow the skeleton -/

theorem take_drop_glue (l : List Byte) (a n b : Nat) (h : a + n ≤ b) :
    (l.drop a).take n ++ (l.drop (a + n)).take (b - (a + n)) = (l.drop a).take (b - a) := by
  have hb : b - a = n + (b - (a + n)) := by omega
  rw [hb, List.take_add, List.drop_drop]

theorem store_zero (buf bs : List Byte) : store buf 0 bs = bs ++ buf.drop bs.length := by
  simp [store]

theorem store_append_at (X D Y : List Byte) :
    store (X ++ D) X.length Y = X ++ Y ++ D.drop Y.length := by
  unfold store
  rw [List.take_left', List.drop_append_eq_append_drop]
  · simp
  · rfl

theorem store_glue (buf S : List Byte) (a n : Nat) (h : a + n ≤ S.length) :
    store (store buf 0 (S.take a)) a ((S.drop a).take n) = store buf 0 (S.take (a + n)) := by
  have ha : (S.take a).length = a := by rw [List.length_take]; omega
  have hn : ((S.drop a).take n).length = n := by
    rw [List.length_take, List.length_drop]; omega
  have han : (S.take (a + n)).length = a + n := by rw [List.length_take]; omega
  rw [store_zero, store_zero, han, ha]
  have := store_append_at (S.take a) (buf.drop (S.take a).length) ((S.drop a).take n)
  rw [ha, hn] at this
  rw [this, List.take_add, List.drop_drop]

theorem send_loop_skel (msg : List Byte) (T : Nat) (hT : T < 9223372036854775808) :
    ∀ (s : Script) (a : Nat), Bounded s → a ≤ T →
    send_loop msg T a s =
      ⟨(skel T a s).exit, (skel T a s).pos, (msg.drop a).take ((skel T a s).pos - a),
        (skel T a s).calls⟩ := by
  intro s
  induction s with
  | nil =>
    intro a _ _
    unfold send_loop skel
    by_cases h : a < T
    · have h2 : (a : Int) < (T : Int) := by omega
      simp [h, h2]
    · have h2 : ¬ (a : Int) < (T : Int) := by omega
      simp [h, h2]
  | cons f rest ih =>
    intro a hb ha
    unfold send_loop skel
    by_cases h : a < T
    · have h2 : (a : Int) < (T : Int) := by omega
      have hc : toSize ((T : Int) - (a : Int)) = T - a := by
        have : ((T : Int) - (a : Int)) = ((T - a : Nat) : Int) := by omega
        rw [this, toSize_natCast]; omega
      simp only [h, h2, if_true, hc]
      by_cases h0 : (f (T - a)).result ≤ 0
      · simp only [h0, if_true]
        by_cases hi : (f (T - a)).result = -1 ∧ (f (T - a)).errno = EINTR
        · simp only [if_pos hi]
          rw [ih a (bounded_tail hb) ha]
        · simp only [if_neg hi]
          simp
      · simp only [h0, if_false]
        have hle := hb f (List.mem_cons_self _ _) (T - a) (by omega)
        have hn : (a : Int) + (f (T - a)).result = ((a + (f (T - a)).result.toNat : Nat) : Int) := by
          omega
        rw [hn, toSsize_natCast _ (by omega), ih _ (bounded_tail hb) (by omega)]
        have hp := (skel_pos_le T rest (a + (f (T - a)).result.toNat) (bounded_tail hb) (by omega)).1
        simp only [Int.toNat_ofNat, SendOut.mk.injEq, true_and, and_true]
        exact take_drop_glue msg a _ _ hp
    · have h2 : ¬ (a : Int) < (T : Int) := by omega
      simp [h, h2]

theorem recv_loop_skel (limit : List Byte → Nat) (T : Nat) (buf0 S : List Byte)
    (hT : T < 9223372036854775808) (hS : T ≤ S.length) :
    ∀ (s : Script) (a : Nat), Bounded s → a ≤ T →
    (∀ b, a ≤ b → b ≤ T → limit (store buf0 0 (S.take b)) = T) →
    recv_loop limit a (store buf0 0 (S.take a)) (S.drop a) s =
      ⟨(skel T a s).exit, (skel T a s).pos, store buf0 0 (S.take (skel T a s).pos),
        S.drop (skel T a s).pos, (skel T a s).calls, s.drop (skel T a s).calls.length⟩ := by
  intro s
  induction s with
  | nil =>
    intro a _ ha hl
    unfold recv_loop skel
    have ht : toSize (a : Int) = a := toSize_natCast a (by omega)
    rw [ht, hl a (le_refl _) ha]
    by_cases h : a < T <;> simp [h]
  | cons f rest ih =>
    intro a hb ha hl
    unfold recv_loop skel
    have ht : toSize (a : Int) = a := toSize_natCast a (by omega)
    rw [ht, hl a (le_refl _) ha]
    by_cases h : a < T
    · have hc : toSize ((T : Int) - (a : Int)) = T - a := by
        have : ((T : Int) - (a : Int)) = ((T - a : Nat) : Int) := by omega
        rw [this, toSize_natCast]; omega
      simp only [h, if_true, hc]
      by_cases h0 : (f (T - a)).result ≤ 0
      · simp only [h0, if_true]
        by_cases hi : (f (T - a)).result = -1 ∧ (f (T - a)).errno = EINTR
        · simp only [if_pos hi]
          rw [ih a (bounded_tail hb) ha hl]
          simp
        · simp only [if_neg hi]
          simp
      · simp only [h0, if_false]
        have hle := hb f (List.mem_cons_self _ _) (T - a) (by omega)
        have hn : (a : Int) + (f (T - a)).result = ((a + (f (T - a)).result.toNat : Nat) : Int) := by
          omega
        rw [hn, toSsize_natCast _ (by omega)]
        simp only [Int.toNat_ofNat]
        rw [store_glue buf0 S a _ (by omega), List.drop_drop,
          ih _ (bounded_tail hb) (by omega) (fun b h1 h2 => hl b (by omega) h2)]
        simp
    · simp [h]

theorem skel_done_pos (T : Nat) (s : Script) (a : Nat) (hb : Bounded s) (ha : a ≤ T)
    (he : (skel T a s).exit = Exit.done) : (skel T a s).pos = T := by
  have h1 := (skel_pos_le T s a hb ha).2
  have h2 := (skel_exit_done T s a).1 he
  omega

theorem bounded_drop {s : Script} (h : Bounded s) (n : Nat) : Bounded (s.drop n) :=
  fun f hf => h f (List.mem_of_mem_drop hf)

theorem send_message_skel (L : Layout) (msg : List Byte) (s : Script) (hb : Bounded s)
    (hfit : msgSize L msg < 9223372036854775808) :
    send_message L msg s = send_skel L msg s := by
  have htot : send_total L msg = (msgSize L msg : Nat) := by
    unfold send_total
    unfold msgSize at hfit ⊢
    rw [Nat.mod_eq_of_lt (by omega), toSsize_natCast _ hfit]
  unfold send_message send_skel
  simp only [htot]
  have h0 : ((0 : Nat) : Int) = 0 := rfl
  rw [← h0, send_loop_skel msg (msgSize L msg) hfit s 0 hb (Nat.zero_le _)]
  have hp := (skel_pos_le (msgSize L msg) s 0 hb (Nat.zero_le _)).2
  have hc : toSize ((msgSize L msg : Int) - ((skel (msgSize L msg) 0 s).pos : Int)) =
      msgSize L msg - (skel (msgSize L msg) 0 s).pos := by
    have : ((msgSize L msg : Int) - ((skel (msgSize L msg) 0 s).pos : Int)) =
        ((msgSize L msg - (skel (msgSize L msg) 0 s).pos : Nat) : Int) := by omega
    rw [this, toSize_natCast]; omega
  simp [hc]

theorem store_take_head (buf S : List Byte) (k b : Nat) (hk : k ≤ b) (hb : b ≤ S.length) :
    (store buf 0 (S.take b)).take k = S.take k := by
  rw [store_zero, List.take_append_of_le_length (by rw [List.length_take]; omega),
    List.take_take, Nat.min_eq_left hk]

theorem recv_message_skel (L : Layout) (buf S : List Byte) (s : Script) (hb : Bounded s)
    (hfit : msgSize L S < 9223372036854775808) (hS : msgSize L S ≤ S.length) :
    recv_message L buf S s = recv_skel L buf S s := by
  have hH : L.hdrSize ≤ msgSize L S := by unfold msgSize; omega
  have hbuf : buf = store buf 0 (S.take 0) := by simp [store]
  have h0 : ((0 : Nat) : Int) = 0 := rfl
  have hS0 : S = S.drop 0 := by simp
  have hhdr := recv_loop_skel (hdr_limit L) L.hdrSize buf S (by omega) (by omega) s 0 hb
    (Nat.zero_le _) (fun _ _ _ => rfl)
  rw [← hbuf, ← hS0, h0] at hhdr
  unfold recv_message recv_skel
  simp only [hhdr]
  cases he : (skel L.hdrSize 0 s).exit with
  | done =>
    have hpos := skel_done_pos L.hdrSize s 0 hb (Nat.zero_le _) he
    simp only [hpos]
    rw [store_take_head buf S L.hdrSize L.hdrSize (le_refl _) (by omega)]
    by_cases hl : L.length (S.take L.hdrSize) > 0
    · simp only [hl, if_true]
      have hbody := recv_loop_skel (body_limit L) (msgSize L S) buf S hfit hS
        (s.drop (skel L.hdrSize 0 s).calls.length) L.hdrSize (bounded_drop hb _) hH
        (fun b h1 h2 => by
          unfold body_limit
          rw [store_take_head buf S L.hdrSize b h1 (by omega)]
          unfold msgSize at hfit ⊢
          exact Nat.mod_eq_of_lt (by omega))
      rw [hbody]
      have hp := (skel_pos_le (msgSize L S) (s.drop (skel L.hdrSize 0 s).calls.length)
        L.hdrSize (bounded_drop hb _) hH)
      simp only [recv_count, RecvRun.mk.injEq, and_true]
      congr 1
      rw [toSize_natCast _ (by omega)]
      unfold body_limit
      rw [store_take_head buf S L.hdrSize _ hp.1 (by omega)]
      have hm : (L.hdrSize + L.length (S.take L.hdrSize)) % 18446744073709551616 =
          msgSize L S := by
        unfold msgSize at hfit ⊢
        exact Nat.mod_eq_of_lt (by omega)
      rw [hm]
      have : ((msgSize L S : Int) -
          ((skel (msgSize L S) L.hdrSize (s.drop (skel L.hdrSize 0 s).calls.length)).pos : Int)) =
          ((msgSize L S - (skel (msgSize L S) L.hdrSize
            (s.drop (skel L.hdrSize 0 s).calls.length)).pos : Nat) : Int) := by omega
      rw [this, toSize_natCast]; omega
    · simp only [hl, if_false]
  | failed => simp [exit_status]
  | starved =>
    have hp := (skel_pos_le L.hdrSize s 0 hb (Nat.zero_le _)).2
    simp only [exit_status, recv_count, hdr_limit, RecvRun.mk.injEq, and_true]
    congr 1
    rw [toSize_natCast _ (by omega)]
    have : ((L.hdrSize : Int) - ((skel L.hdrSize 0 s).pos : Int)) =
        ((L.hdrSize - (skel L.hdrSize 0 s).pos : Nat) : Int) := by omega
    rw [this, toSize_natCast]; omega

/-! ## Runs expressed with the skeleton -/

theorem skel_chunked_calls (T : Nat) (s : Script) (a : Nat) (hp : Chunked s) (ha : a ≤ T) :
    (skel T a s).calls.length + a ≤ (skel T a s).pos ∧
    ∀ c ∈ (skel T a s).calls, 1 ≤ c.result := by
  revert hp ha
  refine skel_induct T (fun a s o => Chunked s → a ≤ T →
    (o.calls.length + a ≤ o.pos ∧ ∀ c ∈ o.calls, 1 ≤ c.result)) ?_ ?_ ?_ ?_ ?_ s a
  · intro a _ _ _; simp
  · intro a s _ _ _; simp
  · intro a f rest h hr _ _ hp _
    have := (hp f (List.mem_cons_self _ _) (T - a) (by omega)).1
    omega
  · intro a f rest h h0 _ hp _
    have := (hp f (List.mem_cons_self _ _) (T - a) (by omega)).1
    omega
  · intro a f rest h hpos ih hp ha
    have hf := hp f (List.mem_cons_self _ _) (T - a) (by omega)
    have := ih (chunked_tail hp) (by omega)
    refine ⟨by simp only [List.length_cons]; omega, ?_⟩
    intro c hc
    simp only [List.mem_cons] at hc
    rcases hc with rfl | hc
    · exact hf.1
    · exact this.2 c hc

theorem send_skel_facts (L : Layout) (msg : List Byte) (s : Script) (hb : Bounded s) :
    ∃ b : Nat, b ≤ msgSize L msg ∧ tiles 0 (send_skel L msg s).calls b ∧
      (send_skel L msg s).sent = msg.take b ∧
      ((send_skel L msg s).status = Status.returned 0 → b = msgSize L msg) ∧
      ((send_skel L msg s).status ≠ Status.returned 0 → b < msgSize L msg) ∧
      (∀ off count, (send_skel L msg s).status = Status.pending off count →
        off = b ∧ count = msgSize L msg - b ∧ (send_skel L msg s).calls.length = s.length) := by
  have hp := skel_pos_le (msgSize L msg) s 0 hb (Nat.zero_le _)
  have he := skel_exit_done (msgSize L msg) s 0
  have hl := skel_calls_length (msgSize L msg) s 0
  refine ⟨(skel (msgSize L msg) 0 s).pos, hp.2, skel_tiles _ s 0, rfl, ?_, ?_, ?_⟩
  · intro hst
    simp only [send_skel] at hst
    cases hx : (skel (msgSize L msg) 0 s).exit with
    | done => have := he.1 hx; omega
    | failed => rw [hx] at hst; simp [exit_status] at hst
    | starved => rw [hx] at hst; simp [exit_status] at hst
  · intro hst
    simp only [send_skel] at hst
    cases hx : (skel (msgSize L msg) 0 s).exit with
    | done => rw [hx] at hst; simp [exit_status] at hst
    | failed => exact he.2 (by rw [hx]; simp)
    | starved => exact he.2 (by rw [hx]; simp)
  · intro off count hst
    simp only [send_skel] at hst
    cases hx : (skel (msgSize L msg) 0 s).exit with
    | done => rw [hx] at hst; simp [exit_status] at hst
    | failed => rw [hx] at hst; simp [exit_status] at hst
    | starved =>
      rw [hx] at hst
      simp only [exit_status, Status.pending.injEq] at hst
      exact ⟨hst.1.symm, hst.2.symm, hl.2 hx⟩

theorem send_skel_chunked (L : Layout) (msg : List Byte) (s : Script) (hp : Chunked s)
    (hlen : msgSize L msg ≤ s.length) :
    (send_skel L msg s).status = Status.returned 0 ∧
    ∀ c ∈ (send_skel L msg s).calls, 1 ≤ c.result ∧ c.result ≤ c.count := by
  have he := skel_chunked (msgSize L msg) s 0 hp (Nat.zero_le _) (by omega)
  refine ⟨by simp [send_skel, he, exit_status], ?_⟩
  intro c hc
  exact ⟨(skel_chunked_calls _ s 0 hp (Nat.zero_le _)).2 c hc,
    skel_calls_bounded _ s 0 (chunked_bounded hp) c hc⟩

theorem chunked_drop {s : Script} (h : Chunked s) (n : Nat) : Chunked (s.drop n) :=
  fun f hf => h f (List.mem_of_mem_drop hf)

theorem skel_phase (T : Nat) (s : Script) (a : Nat) (hb : Bounded s) :
    ∀ c ∈ (skel T a s).calls, ∃ p : Nat, c.off = p ∧ a ≤ p ∧ p < T ∧ c.count = T - p ∧
      p + c.result.toNat ≤ T := by
  intro c hc
  obtain ⟨p, h1, h2, h3, h4⟩ := skel_calls T s a c hc
  have := skel_calls_bounded T s a hb c hc
  exact ⟨p, h1, h2, h3, h4, by omega⟩

theorem recv_skel_facts (L : Layout) (buf S : List Byte) (s : Script) (hb : Bounded s) :
    ∃ b : Nat, b ≤ msgSize L S ∧ tiles 0 (recv_skel L buf S s).calls b ∧
      (recv_skel L buf S s).buf = store buf 0 (S.take b) ∧
      (recv_skel L buf S s).stream = S.drop b ∧
      ((recv_skel L buf S s).status = Status.returned 0 → b = msgSize L S) ∧
      ((recv_skel L buf S s).status ≠ Status.returned 0 → b < msgSize L S) ∧
      (∀ c ∈ (recv_skel L buf S s).calls, phaseCall L.hdrSize (msgSize L S) c) ∧
      (L.length (S.take L.hdrSize) = 0 → ∀ c ∈ (recv_skel L buf S s).calls,
        ∃ p : Nat, c.off = p ∧ p < L.hdrSize) := by
  have hH : L.hdrSize ≤ msgSize L S := by unfold msgSize; omega
  have hp := skel_pos_le L.hdrSize s 0 hb (Nat.zero_le _)
  have ht := skel_tiles L.hdrSize s 0
  have hx1 := skel_exit_done L.hdrSize s 0
  have hc1 : ∀ c ∈ (skel L.hdrSize 0 s).calls, phaseCall L.hdrSize (msgSize L S) c := by
    intro c hc
    obtain ⟨p, h1, _, h3, h4, h5⟩ := skel_phase L.hdrSize s 0 hb c hc
    exact ⟨p, h1, Or.inl ⟨h3, h4, h5⟩⟩
  have hc0 : ∀ c ∈ (skel L.hdrSize 0 s).calls, ∃ p : Nat, c.off = p ∧ p < L.hdrSize := by
    intro c hc
    obtain ⟨p, h1, _, h3, _⟩ := skel_phase L.hdrSize s 0 hb c hc
    exact ⟨p, h1, h3⟩
  cases he : (skel L.hdrSize 0 s).exit with
  | done =>
    simp only [recv_skel, he]
    have hpos := skel_done_pos L.hdrSize s 0 hb (Nat.zero_le _) he
    rw [hpos] at ht
    by_cases hl : L.length (S.take L.hdrSize) > 0
    · simp only [hl, if_true]
      have hp2 := skel_pos_le (msgSize L S) (s.drop (skel L.hdrSize 0 s).calls.length)
        L.hdrSize (bounded_drop hb _) hH
      have he2 := skel_exit_done (msgSize L S) (s.drop (skel L.hdrSize 0 s).calls.length)
        L.hdrSize
      refine ⟨_, hp2.2, tiles_append _ _ _ _ _ ht (skel_tiles _ _ _), rfl, rfl, ?_, ?_, ?_, ?_⟩
      · intro hst
        cases hx : (skel (msgSize L S) L.hdrSize
            (s.drop (skel L.hdrSize 0 s).calls.length)).exit with
        | done => have := he2.1 hx; omega
        | failed => rw [hx] at hst; simp [exit_status] at hst
        | starved => rw [hx] at hst; simp [exit_status] at hst
      · intro hst
        cases hx : (skel (msgSize L S) L.hdrSize
            (s.drop (skel L.hdrSize 0 s).calls.length)).exit with
        | done => rw [hx] at hst; simp [exit_status] at hst
        | failed => exact he2.2 (by rw [hx]; simp)
        | starved => exact he2.2 (by rw [hx]; simp)
      · intro c hc
        simp only [List.mem_append] at hc
        rcases hc with hc | hc
        · exact hc1 c hc
        · obtain ⟨p, h1, h2, h3, h4, h5⟩ := skel_phase (msgSize L S) _ L.hdrSize (bounded_drop hb _) c hc
          exact ⟨p, h1, Or.inr ⟨h2, h3, h4, h5⟩⟩
      · intro h0; omega
    · simp only [hl, if_false]
      have hT : msgSize L S = L.hdrSize := by unfold msgSize; omega
      exact ⟨L.hdrSize, hH, ht, rfl, rfl, fun _ => hT.symm, fun h => absurd rfl h, hc1,
        fun _ => hc0⟩
  | failed =>
    simp only [recv_skel, he]
    have := hx1.2 (by rw [he]; simp)
    exact ⟨_, by omega, ht, rfl, rfl, by simp [exit_status], fun _ => by omega,
      hc1, fun _ => hc0⟩
  | starved =>
    simp only [recv_skel, he]
    have := hx1.2 (by rw [he]; simp)
    exact ⟨_, by omega, ht, rfl, rfl, by simp [exit_status], fun _ => by omega,
      hc1, fun _ => hc0⟩

theorem recv_skel_chunked (L : Layout) (buf S : List Byte) (s : Script) (hp : Chunked s)
    (hlen : msgSize L S ≤ s.length) :
    (recv_skel L buf S s).status = Status.returned 0 ∧
    ∀ c ∈ (recv_skel L buf S s).calls, 1 ≤ c.result ∧ c.result ≤ c.count := by
  have hH : L.hdrSize ≤ msgSize L S := by unfold msgSize; omega
  have he := skel_chunked L.hdrSize s 0 hp (Nat.zero_le _) (by omega)
  have hpos := skel_done_pos L.hdrSize s 0 (chunked_bounded hp) (Nat.zero_le _) he
  have hn := (skel_chunked_calls L.hdrSize s 0 hp (Nat.zero_le _))
  have hall1 : ∀ c ∈ (skel L.hdrSize 0 s).calls, 1 ≤ c.result ∧ c.result ≤ c.count :=
    fun c hc => ⟨hn.2 c hc, skel_calls_bounded _ s 0 (chunked_bounded hp) c hc⟩
  unfold recv_skel
  simp only [he]
  by_cases hl : L.length (S.take L.hdrSize) > 0
  · simp only [hl, if_true]
    have he2 := skel_chunked (msgSize L S) (s.drop (skel L.hdrSize 0 s).calls.length)
      L.hdrSize (chunked_drop hp _) hH (by rw [List.length_drop]; omega)
    have hn2 := skel_chunked_calls (msgSize L S) (s.drop (skel L.hdrSize 0 s).calls.length)
      L.hdrSize (chunked_drop hp _) hH
    refine ⟨by simp [he2, exit_status], ?_⟩
    intro c hc
    simp only [List.mem_append] at hc
    rcases hc with hc | hc
    · exact hall1 c hc
    · exact ⟨hn2.2 c hc, skel_calls_bounded _ _ _ (chunked_bounded (chunked_drop hp _)) c hc⟩
  · simp only [hl, if_false]
    exact ⟨trivial, hall1⟩

theorem skel_head (T : Nat) (s : Script) (a : Nat) (h : a < T) (hs : s ≠ []) :
    ∃ c ∈ (skel T a s).calls, c.off = a ∧ c.count = T - a := by
  cases s with
  | nil => exact absurd rfl hs
  | cons f rest =>
    unfold skel
    simp only [h, if_true]
    by_cases h0 : (f (T - a)).result ≤ 0
    · simp only [h0, if_true]
      by_cases hi : (f (T - a)).result = -1 ∧ (f (T - a)).errno = EINTR
      · simp only [if_pos hi]
        exact ⟨_, List.mem_cons_self _ _, rfl, rfl⟩
      · simp only [if_neg hi]
        exact ⟨_, List.mem_cons_self _ _, rfl, rfl⟩
    · simp only [h0, if_false]
      exact ⟨_, List.mem_cons_self _ _, rfl, rfl⟩

theorem skel_eintr (T : Nat) (h : 0 < T) : ∀ n : Nat,
    skel T 0 (List.replicate n eintr) =
      ⟨Exit.starved, 0, List.replicate n ⟨0, T, -1, EINTR⟩⟩ := by
  intro n
  induction n with
  | zero => simp [skel, h]
  | succ k ih =>
    rw [List.replicate_succ]
    unfold skel
    simp [h, eintr, ih, List.replicate_succ]

theorem bounded_replicate_eintr (n : Nat) : Bounded (List.replicate n eintr) := by
  intro f hf c hc
  rw [List.eq_of_mem_replicate hf]
  simp only [eintr]
  omega

theorem calls_split (cs : List Call) :
    cs.length = (completed cs).length + (cs.filter (fun c => c.interrupted)).length := by
  induction cs with
  | nil => rfl
  | cons c cs ih =>
    unfold completed at ih ⊢
    cases hc : c.interrupted <;> simp [List.filter_cons, hc] <;> omega

theorem status_cases (e : Exit) (off : Int) (count : Nat) (v : Int)
    (h : exit_status e off count = Status.returned v) : v = 0 ∨ v = -1 := by
  cases e <;> simp [exit_status] at h <;> omega

theorem bounded_nil : Bounded [] := fun _ hf => absurd hf (List.not_mem_nil _)

theorem bounded_cons {f : Nat → Resp} {s : Script} (hf : ∀ c : Nat, 0 < c → (f c).result ≤ c)
    (hs : Bounded s) : Bounded (f :: s) := by
  intro g hg c hc
  rcases List.mem_cons.mp hg with rfl | hg
  · exact hf c hc
  · exact hs g hg c hc

theorem chunked_nil : Chunked [] := fun _ hf => absurd hf (List.not_mem_nil _)

theorem chunked_cons {f : Nat → Resp} {s : Script}
    (hf : ∀ c : Nat, 0 < c → 1 ≤ (f c).result ∧ (f c).result ≤ c)
    (hs : Chunked s) : Chunked (f :: s) := by
  intro g hg c hc
  rcases List.mem_cons.mp hg with rfl | hg
  · exact hf c hc
  · exact hs g hg c hc

theorem oneByte_chunked (c : Nat) (hc : 0 < c) :
    1 ≤ (oneByte c).result ∧ (oneByte c).result ≤ c := by
  simp only [oneByte]; omega

theorem allBytes_chunked (c : Nat) (hc : 0 < c) :
    1 ≤ (allBytes c).result ∧ (allBytes c).result ≤ c := by
  simp only [allBytes]; omega

theorem upTo_chunked (k : Nat) (hk : 0 < k) (c : Nat) (hc : 0 < c) :
    1 ≤ (upTo k c).result ∧ (upTo k c).result ≤ c := by
  simp only [upTo]; omega

theorem eintr_bounded (c : Nat) (_ : 0 < c) : (eintr c).result ≤ c := by
  simp only [eintr]; omega

theorem chunked_replicate_oneByte (n : Nat) : Chunked (List.replicate n oneByte) := by
  intro f hf c hc
  rw [List.eq_of_mem_replicate hf]
  exact oneByte_chunked c hc

theorem send_run_complete (L : Layout) (msg : List Byte) (s : Script)
    (hp : Chunked s) (hfit : msgSize L msg < 9223372036854775808)
    (hmem : msgSize L msg ≤ msg.length) (hlen : msgSize L msg ≤ s.length) :
    (send_message L msg s).status = Status.returned 0 ∧
    (send_message L msg s).sent = msg.take (msgSize L msg) ∧
    (send_message L msg s).sent.length = msgSize L msg ∧
    tiles 0 (send_message L msg s).calls (msgSize L msg) ∧
    ∀ c ∈ (send_message L msg s).calls, 1 ≤ c.result ∧ c.result ≤ c.count := by
  rw [send_message_skel L msg s (chunked_bounded hp) hfit]
  obtain ⟨b, _, ht, hsent, hdone, _, _⟩ := send_skel_facts L msg s (chunked_bounded hp)
  have hst := send_skel_chunked L msg s hp hlen
  have hb := hdone hst.1
  subst hb
  refine ⟨hst.1, hsent, ?_, ht, hst.2⟩
  rw [hsent, List.length_take]
  omega

theorem recv_run_complete (L : Layout) (buf S : List Byte) (s : Script)
    (hp : Chunked s) (hfit : msgSize L S < 9223372036854775808)
    (hS : msgSize L S ≤ S.length) (hlen : msgSize L S ≤ s.length) :
    (recv_message L buf S s).status = Status.returned 0 ∧
    (recv_message L buf S s).buf = store buf 0 (S.take (msgSize L S)) ∧
    (recv_message L buf S s).stream = S.drop (msgSize L S) ∧
    tiles 0 (recv_message L buf S s).calls (msgSize L S) ∧
    ∀ c ∈ (recv_message L buf S s).calls, 1 ≤ c.result ∧ c.result ≤ c.count := by
  rw [recv_message_skel L buf S s (chunked_bounded hp) hfit hS]
  obtain ⟨b, _, ht, hbuf, hstream, hdone, _, _, _⟩ := recv_skel_facts L buf S s (chunked_bounded hp)
  have hst := recv_skel_chunked L buf S s hp hlen
  have hb := hdone hst.1
  subst hb
  exact ⟨hst.1, hbuf, hstream, ht, hst.2⟩

theorem recv_skel_body_call (L : Layout) (buf S : List Byte) (s : Script) (hp : Chunked s)
    (hlen : msgSize L S ≤ s.length) (hpos : 0 < L.length (S.take L.hdrSize)) :
    ∃ c ∈ (recv_skel L buf S s).calls,
      c.off = L.hdrSize ∧ c.count = L.length (S.take L.hdrSize) := by
  have hH : L.hdrSize < msgSize L S := by unfold msgSize; omega
  have he := skel_chunked L.hdrSize s 0 hp (Nat.zero_le _) (by omega)
  have hn := (skel_chunked_calls L.hdrSize s 0 hp (Nat.zero_le _)).1
  have hpos1 := skel_done_pos L.hdrSize s 0 (chunked_bounded hp) (Nat.zero_le _) he
  have hne : s.drop (skel L.hdrSize 0 s).calls.length ≠ [] := by
    intro h
    have := congrArg List.length h
    rw [List.length_drop] at this
    simp only [List.length_nil] at this
    omega
  obtain ⟨c, hc, h1, h2⟩ := skel_head (msgSize L S) _ L.hdrSize hH hne
  refine ⟨c, ?_, h1, ?_⟩
  · simp only [recv_skel, he, hpos, gt_iff_lt, if_true]
    exact List.mem_append_right _ hc
  · rw [h2]; unfold msgSize; omega

theorem recv_status_values (L : Layout) (buf S : List Byte) (s : Script) (v : Int)
    (h : (recv_message L buf S s).status = Status.returned v) : v = 0 ∨ v = -1 := by
  unfold recv_message at h
  cases he : (recv_loop (hdr_limit L) 0 buf S s).exit with
  | done =>
    simp only [he] at h
    by_cases hl : L.length ((recv_loop (hdr_limit L) 0 buf S s).buf.take L.hdrSize) > 0
    · simp only [hl, if_true] at h
      exact status_cases _ _ _ v h
    · simp only [hl, if_false, Status.returned.injEq] at h
      omega
  | failed =>
    simp only [he] at h
    exact status_cases _ _ _ v h
  | starved =>
    simp only [he] at h
    exact status_cases _ _ _ v h

/-! ## Control flow of the loops, for any primitive -/

theorem send_loop_exit_cond (msg : List Byte) (T bs : Int) (s : Script) (h : ¬ bs < T) :
    send_loop msg T bs s = ⟨Exit.done, bs, [], []⟩ := by
  cases s <;> simp [send_loop, h]

theorem send_loop_starved (msg : List Byte) (T : Int) : ∀ (s : Script) (bs : Int),
    (send_loop msg T bs s).exit = Exit.starved →
    (send_loop msg T bs s).bytes_sent < T := by
  intro s
  induction s with
  | nil =>
    intro bs h
    by_cases hc : bs < T
    · simp [send_loop, hc]
    · simp [send_loop, hc] at h
  | cons f rest ih =>
    intro bs h
    by_cases hc : bs < T
    · simp only [send_loop, hc, if_true] at h ⊢
      by_cases h0 : (f (toSize (T - bs))).result ≤ 0
      · simp only [h0, if_true] at h ⊢
        by_cases hi : (f (toSize (T - bs))).result = -1 ∧ (f (toSize (T - bs))).errno = EINTR
        · simp only [if_pos hi] at h ⊢
          exact ih bs h
        · simp only [if_neg hi] at h
          exact absurd h (by simp)
      · simp only [h0, if_false] at h ⊢
        exact ih _ h
    · simp [send_loop, hc] at h

theorem send_loop_append (msg : List Byte) (T : Int) : ∀ (pre : Script) (bs : Int)
    (more : Script),
    send_loop msg T bs (pre ++ more) = send_resume msg T (send_loop msg T bs pre) more := by
  intro pre
  induction pre with
  | nil =>
    intro bs more
    by_cases hc : bs < T
    · simp [send_loop, send_resume, hc]
    · simp [send_loop, send_resume, hc, send_loop_exit_cond msg T bs more hc]
  | cons f rest ih =>
    intro bs more
    rw [List.cons_append]
    by_cases hc : bs < T
    · simp only [send_loop, hc, if_true]
      by_cases h0 : (f (toSize (T - bs))).result ≤ 0
      · simp only [h0, if_true]
        by_cases hi : (f (toSize (T - bs))).result = -1 ∧ (f (toSize (T - bs))).errno = EINTR
        · simp only [if_pos hi]
          rw [ih bs more]
          unfold send_resume
          cases hx : (send_loop msg T bs rest).exit <;> simp [hx]
        · simp only [if_neg hi]
          simp [send_resume]
      · simp only [h0, if_false]
        rw [ih _ more]
        unfold send_resume
        cases hx : (send_loop msg T (toSsize (bs + (f (toSize (T - bs))).result)) rest).exit <;> simp [hx]
    · simp [send_loop, send_resume, hc]

theorem recv_loop_exit_cond (limit : List Byte → Nat) (br : Int) (buf st : List Byte)
    (s : Script) (h : ¬ toSize br < limit buf) :
    recv_loop limit br buf st s = ⟨Exit.done, br, buf, st, [], s⟩ := by
  cases s <;> simp [recv_loop, h]

theorem recv_loop_starved (limit : List Byte → Nat) : ∀ (s : Script) (br : Int)
    (buf st : List Byte),
    (recv_loop limit br buf st s).exit = Exit.starved →
    toSize (recv_loop limit br buf st s).bytes_received < limit (recv_loop limit br buf st s).buf ∧
    (recv_loop limit br buf st s).rest = [] := by
  intro s
  induction s with
  | nil =>
    intro br buf st h
    by_cases hc : toSize br < limit buf
    · simp [recv_loop, hc]
    · simp [recv_loop, hc] at h
  | cons f rest ih =>
    intro br buf st h
    by_cases hc : toSize br < limit buf
    · simp only [recv_loop, hc, if_true] at h ⊢
      by_cases h0 : (f (toSize ((limit buf : Int) - (toSize br : Int)))).result ≤ 0
      · simp only [h0, if_true] at h ⊢
        by_cases hi : (f (toSize ((limit buf : Int) - (toSize br : Int)))).result = -1 ∧
            (f (toSize ((limit buf : Int) - (toSize br : Int)))).errno = EINTR
        · simp only [if_pos hi] at h ⊢
          exact ih br buf st h
        · simp only [if_neg hi] at h
          exact absurd h (by simp)
      · simp only [h0, if_false] at h ⊢
        exact ih _ _ _ h
    · simp [recv_loop, hc] at h

theorem recv_loop_append (limit : List Byte → Nat) : ∀ (pre : Script) (br : Int)
    (buf st : List Byte) (more : Script),
    recv_loop limit br buf st (pre ++ more) =
      recv_resume limit (recv_loop limit br buf st pre) more := by
  intro pre
  induction pre with
  | nil =>
    intro br buf st more
    by_cases hc : toSize br < limit buf
    · simp [recv_loop, recv_resume, hc]
    · simp [recv_loop, recv_resume, hc, recv_loop_exit_cond limit br buf st more hc]
  | cons f rest ih =>
    intro br buf st more
    rw [List.cons_append]
    by_cases hc : toSize br < limit buf
    · simp only [recv_loop, hc, if_true]
      by_cases h0 : (f (toSize ((limit buf : Int) - (toSize br : Int)))).result ≤ 0
      · simp only [h0, if_true]
        by_cases hi : (f (toSize ((limit buf : Int) - (toSize br : Int)))).result = -1 ∧
            (f (toSize ((limit buf : Int) - (toSize br : Int)))).errno = EINTR
        · simp only [if_pos hi]
          rw [ih br buf st more]
          unfold recv_resume
          cases hx : (recv_loop limit br buf st rest).exit <;> simp [hx]
        · simp only [if_neg hi]
          simp [recv_resume]
      · simp only [h0, if_false]
        rw [ih _ _ _ more]
        unfold recv_resume
        split <;> simp_all
    · simp [recv_loop, recv_resume, hc]

theorem completed_cons_eintr (off : Int) (count : Nat) (cs : List Call) :
    completed (⟨off, count, (eintr count).result, (eintr count).errno⟩ :: cs) = completed cs := by
  simp [completed, Call.interrupted, eintr]

theorem completed_cons (c : Call) (cs cs2 : List Call) (h : completed cs2 = completed cs) :
    completed (c :: cs2) = completed (c :: cs) := by
  unfold completed at h ⊢
  simp only [List.filter_cons, h]

theorem send_loop_inserted (msg : List Byte) (T : Int) {s s2 : Script}
    (h : EintrInserted s s2) : ∀ bs : Int,
    (send_loop msg T bs s2).exit = (send_loop msg T bs s).exit ∧
    (send_loop msg T bs s2).bytes_sent = (send_loop msg T bs s).bytes_sent ∧
    (send_loop msg T bs s2).sent = (send_loop msg T bs s).sent ∧
    completed (send_loop msg T bs s2).calls = completed (send_loop msg T bs s).calls := by
  induction h with
  | nil => intro bs; exact ⟨rfl, rfl, rfl, rfl⟩
  | keep f _ ih =>
    intro bs
    by_cases hc : bs < T
    · simp only [send_loop, hc, if_true]
      by_cases h0 : (f (toSize (T - bs))).result ≤ 0
      · simp only [h0, if_true]
        by_cases hi : (f (toSize (T - bs))).result = -1 ∧ (f (toSize (T - bs))).errno = EINTR
        · simp only [if_pos hi]
          obtain ⟨h1, h2, h3, h4⟩ := ih bs
          exact ⟨h1, h2, h3, completed_cons _ _ _ h4⟩
        · simp only [if_neg hi]
          simp
      · simp only [h0, if_false]
        obtain ⟨h1, h2, h3, h4⟩ := ih (toSsize (bs + (f (toSize (T - bs))).result))
        exact ⟨h1, h2, by rw [h3], completed_cons _ _ _ h4⟩
    · simp [send_loop, hc]
  | @ins s1 s3 _ ih =>
    intro bs
    by_cases hc : bs < T
    · obtain ⟨h1, h2, h3, h4⟩ := ih bs
      have hr : (eintr (toSize (T - bs))).result ≤ 0 := by simp [eintr]
      have hi : (eintr (toSize (T - bs))).result = -1 ∧ (eintr (toSize (T - bs))).errno = EINTR := by
        simp [eintr]
      have : send_loop msg T bs (eintr :: s3) =
          { send_loop msg T bs s3 with
            calls := ⟨bs, toSize (T - bs), (eintr (toSize (T - bs))).result,
              (eintr (toSize (T - bs))).errno⟩ :: (send_loop msg T bs s3).calls } := by
        rw [send_loop]
        simp only [hc, if_true, hr, if_pos hi]
      rw [this]
      exact ⟨h1, h2, h3, by rw [completed_cons_eintr]; exact h4⟩
    · rw [send_loop_exit_cond msg T bs _ hc, send_loop_exit_cond msg T bs _ hc]
      exact ⟨rfl, rfl, rfl, rfl⟩

theorem recv_loop_inserted (limit : List Byte → Nat) {s s2 : Script}
    (h : EintrInserted s s2) : ∀ (br : Int) (buf st : List Byte),
    (recv_loop limit br buf st s2).exit = (recv_loop limit br buf st s).exit ∧
    (recv_loop limit br buf st s2).bytes_received = (recv_loop limit br buf st s).bytes_received ∧
    (recv_loop limit br buf st s2).buf = (recv_loop limit br buf st s).buf ∧
    (recv_loop limit br buf st s2).stream = (recv_loop limit br buf st s).stream ∧
    completed (recv_loop limit br buf st s2).calls = completed (recv_loop limit br buf st s).calls ∧
    EintrInserted (recv_loop limit br buf st s).rest (recv_loop limit br buf st s2).rest := by
  induction h with
  | nil =>
    intro br buf st
    by_cases hc : toSize br < limit buf <;>
      simp [recv_loop, hc, EintrInserted.nil]
  | @keep f s1 s3 hins ih =>
    intro br buf st
    by_cases hc : toSize br < limit buf
    · simp only [recv_loop, hc, if_true]
      by_cases h0 : (f (toSize ((limit buf : Int) - (toSize br : Int)))).result ≤ 0
      · simp only [h0, if_true]
        by_cases hi : (f (toSize ((limit buf : Int) - (toSize br : Int)))).result = -1 ∧
            (f (toSize ((limit buf : Int) - (toSize br : Int)))).errno = EINTR
        · simp only [if_pos hi]
          obtain ⟨h1, h2, h3, h4, h5, h6⟩ := ih br buf st
          exact ⟨h1, h2, h3, h4, completed_cons _ _ _ h5, h6⟩
        · simp only [if_neg hi]
          simpa using hins
      · simp only [h0, if_false]
        obtain ⟨h1, h2, h3, h4, h5, h6⟩ := ih
          (toSsize (br + (f (toSize ((limit buf : Int) - (toSize br : Int)))).result))
          (store buf br.toNat
            (st.take (f (toSize ((limit buf : Int) - (toSize br : Int)))).result.toNat))
          (st.drop (f (toSize ((limit buf : Int) - (toSize br : Int)))).result.toNat)
        exact ⟨h1, h2, h3, h4, completed_cons _ _ _ h5, h6⟩
    · rw [recv_loop_exit_cond limit br buf st _ hc, recv_loop_exit_cond limit br buf st _ hc]
      exact ⟨rfl, rfl, rfl, rfl, rfl, EintrInserted.keep f hins⟩
  | @ins s1 s3 hins ih =>
    intro br buf st
    by_cases hc : toSize br < limit buf
    · obtain ⟨h1, h2, h3, h4, h5, h6⟩ := ih br buf st
      have hr : (eintr (toSize ((limit buf : Int) - (toSize br : Int)))).result ≤ 0 := by
        simp [eintr]
      have hi : (eintr (toSize ((limit buf : Int) - (toSize br : Int)))).result = -1 ∧
          (eintr (toSize ((limit buf : Int) - (toSize br : Int)))).errno = EINTR := by
        simp [eintr]
      have : recv_loop limit br buf st (eintr :: s3) =
          { recv_loop limit br buf st s3 with
            calls := ⟨br, toSize ((limit buf : Int) - (toSize br : Int)),
              (eintr (toSize ((limit buf : Int) - (toSize br : Int)))).result,
              (eintr (toSize ((limit buf : Int) - (toSize br : Int)))).errno⟩ ::
                (recv_loop limit br buf st s3).calls } := by
        rw [recv_loop]
        simp only [hc, if_true, hr, if_pos hi]
      rw [this]
      exact ⟨h1, h2, h3, h4, by rw [completed_cons_eintr]; exact h5, h6⟩
    · rw [recv_loop_exit_cond limit br buf st _ hc, recv_loop_exit_cond limit br buf st _ hc]
      exact ⟨rfl, rfl, rfl, rfl, rfl, EintrInserted.ins hins⟩

theorem send_loop_step_fail (msg : List Byte) (T bs : Int) (f : Nat → Resp) (post : Script)
    (hc : bs < T)
    (hbad : (f (toSize (T - bs))).result = 0 ∨
      ((f (toSize (T - bs))).result = -1 ∧ (f (toSize (T - bs))).errno ≠ EINTR)) :
    send_loop msg T bs (f :: post) =
      ⟨Exit.failed, bs, [],
        [⟨bs, toSize (T - bs), (f (toSize (T - bs))).result, (f (toSize (T - bs))).errno⟩]⟩ := by
  have h0 : (f (toSize (T - bs))).result ≤ 0 := by omega
  have hi : ¬ ((f (toSize (T - bs))).result = -1 ∧ (f (toSize (T - bs))).errno = EINTR) := by
    rintro ⟨h1, h2⟩
    rcases hbad with h | h
    · omega
    · exact h.2 h2
  rw [send_loop]
  simp only [hc, if_true, h0, if_neg hi]

theorem send_loop_step_intr (msg : List Byte) (T bs : Int) (f : Nat → Resp)
    (hc : bs < T) (h1 : (f (toSize (T - bs))).result = -1)
    (h2 : (f (toSize (T - bs))).errno = EINTR) :
    send_loop msg T bs [f] =
      ⟨Exit.starved, bs, [],
        [⟨bs, toSize (T - bs), (f (toSize (T - bs))).result, (f (toSize (T - bs))).errno⟩]⟩ := by
  have h0 : (f (toSize (T - bs))).result ≤ 0 := by omega
  rw [send_loop]
  simp only [hc, if_true, h0, if_pos (And.intro h1 h2), send_loop]

theorem send_message_step (L : Layout) (msg : List Byte) (pre X : Script) (off : Int)
    (count : Nat) (e2 : Exit) (c : Call)
    (hpend : (send_message L msg pre).status = Status.pending off count)
    (hstep : ∀ bs : Int, bs < send_total L msg → bs = off →
      toSize (send_total L msg - bs) = count →
      send_loop msg (send_total L msg) bs X = ⟨e2, bs, [], [c]⟩) :
    send_message L msg (pre ++ X) =
      ⟨exit_status e2 off count, (send_message L msg pre).sent,
        (send_message L msg pre).calls ++ [c]⟩ := by
  simp only [send_message] at hpend ⊢
  rw [send_loop_append]
  cases he : (send_loop msg (send_total L msg) 0 pre).exit with
  | done => rw [he] at hpend; simp [exit_status] at hpend
  | failed => rw [he] at hpend; simp [exit_status] at hpend
  | starved =>
    rw [he] at hpend
    simp only [exit_status, Status.pending.injEq] at hpend
    obtain ⟨hp1, hp2⟩ := hpend
    subst hp1 hp2
    have hlt := send_loop_starved msg (send_total L msg) pre 0 he
    have hs := hstep _ hlt rfl rfl
    simp only [send_resume, he, hs, List.append_nil]

theorem recv_loop_step_fail (limit : List Byte → Nat) (br : Int) (buf st : List Byte)
    (f : Nat → Resp) (post : Script) (hc : toSize br < limit buf)
    (hbad : (f (recv_count limit br buf)).result = 0 ∨
      ((f (recv_count limit br buf)).result = -1 ∧ (f (recv_count limit br buf)).errno ≠ EINTR)) :
    recv_loop limit br buf st (f :: post) =
      ⟨Exit.failed, br, buf, st,
        [⟨br, recv_count limit br buf, (f (recv_count limit br buf)).result,
          (f (recv_count limit br buf)).errno⟩], post⟩ := by
  have h0 : (f (recv_count limit br buf)).result ≤ 0 := by omega
  have hi : ¬ ((f (recv_count limit br buf)).result = -1 ∧
      (f (recv_count limit br buf)).errno = EINTR) := by
    rintro ⟨h1, h2⟩
    rcases hbad with h | h
    · omega
    · exact h.2 h2
  unfold recv_count at h0 hi ⊢
  rw [recv_loop]
  simp only [hc, if_true, h0, if_neg hi]

theorem recv_loop_step_intr (limit : List Byte → Nat) (br : Int) (buf st : List Byte)
    (f : Nat → Resp) (hc : toSize br < limit buf)
    (h1 : (f (recv_count limit br buf)).result = -1)
    (h2 : (f (recv_count limit br buf)).errno = EINTR) :
    recv_loop limit br buf st [f] =
      ⟨Exit.starved, br, buf, st,
        [⟨br, recv_count limit br buf, (f (recv_count limit br buf)).result,
          (f (recv_count limit br buf)).errno⟩], []⟩ := by
  have h0 : (f (recv_count limit br buf)).result ≤ 0 := by omega
  unfold recv_count at h0 h1 h2 ⊢
  rw [recv_loop]
  simp only [hc, if_true, h0, if_pos (And.intro h1 h2), recv_loop]

theorem recv_message_step (L : Layout) (buf S : List Byte) (pre X : Script) (off : Int)
    (count : Nat) (e2 : Exit) (c : Call) (rest2 : Script) (hne : e2 ≠ Exit.done)
    (hpend : (recv_message L buf S pre).status = Status.pending off count)
    (hstep : ∀ (limit : List Byte → Nat) (br : Int) (bf st : List Byte),
      toSize br < limit bf → br = off → recv_count limit br bf = count →
      recv_loop limit br bf st X = ⟨e2, br, bf, st, [c], rest2⟩) :
    recv_message L buf S (pre ++ X) =
      ⟨exit_status e2 off count, (recv_message L buf S pre).buf,
        (recv_message L buf S pre).stream, (recv_message L buf S pre).calls ++ [c]⟩ := by
  simp only [recv_message] at hpend ⊢
  rw [recv_loop_append]
  cases he : (recv_loop (hdr_limit L) 0 buf S pre).exit with
  | failed => rw [he] at hpend; simp [exit_status] at hpend
  | starved =>
    rw [he] at hpend
    simp only [exit_status, Status.pending.injEq] at hpend
    obtain ⟨hp1, hp2⟩ := hpend
    subst hp1 hp2
    have hlt := (recv_loop_starved (hdr_limit L) pre 0 buf S he).1
    have hs := hstep (hdr_limit L) _ _ (recv_loop (hdr_limit L) 0 buf S pre).stream hlt
      rfl rfl
    cases e2 with
    | done => exact absurd rfl hne
    | failed => simp only [recv_resume, he, hs, exit_status]
    | starved => simp only [recv_resume, he, hs, exit_status]
  | done =>
    rw [he] at hpend
    simp only at hpend
    simp only [recv_resume, he]
    by_cases hl : L.length ((recv_loop (hdr_limit L) 0 buf S pre).buf.take L.hdrSize) > 0
    · simp only [hl, if_true] at hpend ⊢
      rw [recv_loop_append]
      cases hb : (recv_loop (body_limit L) (recv_loop (hdr_limit L) 0 buf S pre).bytes_received
          (recv_loop (hdr_limit L) 0 buf S pre).buf (recv_loop (hdr_limit L) 0 buf S pre).stream
          (recv_loop (hdr_limit L) 0 buf S pre).rest).exit with
      | done => rw [hb] at hpend; simp [exit_status] at hpend
      | failed => rw [hb] at hpend; simp [exit_status] at hpend
      | starved =>
        rw [hb] at hpend
        simp only [exit_status, Status.pending.injEq] at hpend
        obtain ⟨hp1, hp2⟩ := hpend
        subst hp1 hp2
        have hlt := (recv_loop_starved (body_limit L) _ _ _ _ hb).1
        have hs := hstep (body_limit L) _ _ (recv_loop (body_limit L)
          (recv_loop (hdr_limit L) 0 buf S pre).bytes_received
          (recv_loop (hdr_limit L) 0 buf S pre).buf (recv_loop (hdr_limit L) 0 buf S pre).stream
          (recv_loop (hdr_limit L) 0 buf S pre).rest).stream hlt rfl rfl
        cases e2 with
        | done => exact absurd rfl hne
        | failed => simp only [recv_resume, hb, hs, exit_status, List.append_assoc]
        | starved => simp only [recv_resume, hb, hs, exit_status, List.append_assoc]
    · simp only [hl, if_false] at hpend
      simp at hpend

theorem accepted_cons (c : Call) (cs : List Call) :
    accepted (c :: cs) = c.result.toNat + accepted cs := by
  simp [accepted]

theorem send_loop_accepted (msg : List Byte) (T : Int) : ∀ (s : Script) (bs : Int),
    -9223372036854775808 ≤ bs → bs < 9223372036854775808 →
    -9223372036854775808 ≤ (send_loop msg T bs s).bytes_sent ∧
    (send_loop msg T bs s).bytes_sent < 9223372036854775808 ∧
    ((send_loop msg T bs s).bytes_sent - bs - (accepted (send_loop msg T bs s).calls : Int))
      % 18446744073709551616 = 0 ∧
    ((send_loop msg T bs s).exit = Exit.done → T ≤ (send_loop msg T bs s).bytes_sent) := by
  intro s
  induction s with
  | nil =>
    intro bs h1 h2
    by_cases hc : bs < T
    · simp [send_loop, hc, accepted, h1, h2]
    · simp only [send_loop, hc, if_false, accepted, List.map_nil, List.sum_nil]
      refine ⟨h1, h2, by simp, fun _ => by omega⟩
  | cons f rest ih =>
    intro bs h1 h2
    by_cases hc : bs < T
    · simp only [send_loop, hc, if_true]
      by_cases h0 : (f (toSize (T - bs))).result ≤ 0
      · simp only [h0, if_true]
        by_cases hi : (f (toSize (T - bs))).result = -1 ∧ (f (toSize (T - bs))).errno = EINTR
        · simp only [if_pos hi]
          obtain ⟨g1, g2, g3, g4⟩ := ih bs h1 h2
          refine ⟨g1, g2, ?_, g4⟩
          rw [accepted_cons]
          have : (f (toSize (T - bs))).result.toNat = 0 := by omega
          simp only [this, Nat.zero_add]
          exact g3
        · simp only [if_neg hi]
          refine ⟨h1, h2, ?_, fun h => absurd h (by simp)⟩
          rw [accepted_cons]
          have : (f (toSize (T - bs))).result.toNat = 0 := by omega
          simp [this, accepted]
      · simp only [h0, if_false]
        have hr1 : -9223372036854775808 ≤ toSsize (bs + (f (toSize (T - bs))).result) := by
          unfold toSsize; omega
        have hr2 : toSsize (bs + (f (toSize (T - bs))).result) < 9223372036854775808 := by
          unfold toSsize; omega
        obtain ⟨g1, g2, g3, g4⟩ := ih _ hr1 hr2
        refine ⟨g1, g2, ?_, g4⟩
        rw [accepted_cons]
        have hn : ((f (toSize (T - bs))).result.toNat : Int) = (f (toSize (T - bs))).result := by
          omega
        have hmod : (toSsize (bs + (f (toSize (T - bs))).result) -
            (bs + (f (toSize (T - bs))).result)) % 18446744073709551616 = 0 := by
          unfold toSsize; omega
        push_cast
        rw [hn]
        omega
    · simp only [send_loop, hc, if_false, accepted, List.map_nil, List.sum_nil]
      refine ⟨h1, h2, by simp, fun _ => by omega⟩

theorem send_total_fit (L : Layout) (msg : List Byte)
    (hfit : msgSize L msg < 9223372036854775808) : send_total L msg = (msgSize L msg : Nat) := by
  unfold send_total
  unfold msgSize at hfit ⊢
  rw [Nat.mod_eq_of_lt (by omega), toSsize_natCast _ hfit]

theorem send_returned_accepted (L : Layout) (msg : List Byte) (s : Script)
    (hfit : msgSize L msg < 9223372036854775808)
    (h : (send_message L msg s).status = Status.returned 0) :
    msgSize L msg ≤ accepted (send_message L msg s).calls := by
  simp only [send_message] at h ⊢
  obtain ⟨g1, g2, g3, g4⟩ := send_loop_accepted msg (send_total L msg) s 0 (by omega) (by omega)
  cases he : (send_loop msg (send_total L msg) 0 s).exit with
  | done =>
    have := g4 he
    have hT := send_total_fit L msg hfit
    omega
  | failed => rw [he] at h; simp [exit_status] at h
  | starved => rw [he] at h; simp [exit_status] at h

theorem send_message_inserted (L : Layout) (msg : List Byte) {s s2 : Script}
    (h : EintrInserted s s2) :
    (send_message L msg s2).status = (send_message L msg s).status ∧
    (send_message L msg s2).sent = (send_message L msg s).sent ∧
    completed (send_message L msg s2).calls = completed (send_message L msg s).calls := by
  obtain ⟨h1, h2, h3, h4⟩ := send_loop_inserted msg (send_total L msg) h 0
  simp only [send_message]
  rw [h1, h2]
  exact ⟨rfl, h3, h4⟩

theorem completed_append (cs1 cs2 : List Call) :
    completed (cs1 ++ cs2) = completed cs1 ++ completed cs2 := by
  simp [completed]

theorem recv_message_inserted (L : Layout) (buf S : List Byte) {s s2 : Script}
    (h : EintrInserted s s2) :
    (recv_message L buf S s2).status = (recv_message L buf S s).status ∧
    (recv_message L buf S s2).buf = (recv_message L buf S s).buf ∧
    (recv_message L buf S s2).stream = (recv_message L buf S s).stream ∧
    completed (recv_message L buf S s2).calls = completed (recv_message L buf S s).calls := by
  obtain ⟨h1, h2, h3, h4, h5, h6⟩ := recv_loop_inserted (hdr_limit L) h 0 buf S
  simp only [recv_message]
  rw [h1, h2, h3, h4]
  cases he : (recv_loop (hdr_limit L) 0 buf S s).exit with
  | done =>
    simp only
    by_cases hl : L.length ((recv_loop (hdr_limit L) 0 buf S s).buf.take L.hdrSize) > 0
    · simp only [hl, if_true]
      obtain ⟨g1, g2, g3, g4, g5, _⟩ := recv_loop_inserted (body_limit L) h6
        (recv_loop (hdr_limit L) 0 buf S s).bytes_received
        (recv_loop (hdr_limit L) 0 buf S s).buf (recv_loop (hdr_limit L) 0 buf S s).stream
      rw [g1, g2, g3, g4, completed_append, completed_append, h5, g5]
      refine ⟨?_, ?_, ?_, ?_⟩ <;> rfl
    · simp only [hl, if_false]
      exact ⟨trivial, trivial, trivial, h5⟩
  | failed => exact ⟨rfl, rfl, rfl, h5⟩
  | starved => exact ⟨rfl, rfl, rfl, h5⟩

/-! ## Properties of `send_message` and `recv_message` -/

/-- C3 (resilience to short writes): for every message whose `sizeof(header) +
header.length` bytes lie in memory and fit `ssize_t`, and every write
primitive that accepts between 1 byte and the requested count on each call
(the script answering at least that many calls), `send_message` returns 0,
the bytes accepted are exactly the first `sizeof(header) + header.length`
bytes of the message, and the ranges accepted by the successive writes are
adjacent from offset 0 to that size: in order, each byte once. -/
theorem send_message_chunked_write (L : Layout) (msg : List Byte) (s : Script)
    (hp : Chunked s) (hfit : msgSize L msg < 9223372036854775808)
    (hmem : msgSize L msg ≤ msg.length) (hlen : msgSize L msg ≤ s.length) :
    (send_message L msg s).status = Status.returned 0 ∧
    (send_message L msg s).sent = msg.take (msgSize L msg) ∧
    (send_message L msg s).sent.length = msgSize L msg ∧
    tiles 0 (send_message L msg s).calls (msgSize L msg) ∧
    ∀ c ∈ (send_message L msg s).calls, 1 ≤ c.result ∧ c.result ≤ c.count :=
  send_run_complete L msg s hp hfit hmem hlen

theorem send_message_chunked_write_witness :
    (send_message demoLayout [7, 3, 10, 11, 12] (List.replicate 5 oneByte)).status =
      Status.returned 0 ∧
    (send_message demoLayout [7, 3, 10, 11, 12] (List.replicate 5 oneByte)).sent =
      [7, 3, 10, 11, 12] ∧
    tiles 0 (send_message demoLayout [7, 3, 10, 11, 12] (List.replicate 5 oneByte)).calls 5 := by
  have h := send_message_chunked_write demoLayout [7, 3, 10, 11, 12] (List.replicate 5 oneByte)
    (chunked_replicate_oneByte 5) (by decide) (by decide) (by decide)
  exact ⟨h.1, h.2.1, h.2.2.2.1⟩

/-- C4 (resilience to short reads): for every byte stream that begins with a
header followed by `header.length` body bytes (the size fitting `ssize_t`),
and every read primitive that delivers between 1 byte and the requested count
of the next stream bytes on each call (the script answering at least that many
calls), `recv_message` returns 0 and the first `sizeof(header) +
header.length` bytes of the message buffer are the first bytes of the stream,
in stream order; the reads are adjacent from offset 0 to that size. -/
theorem recv_message_chunked_read (L : Layout) (buf S : List Byte) (s : Script)
    (hp : Chunked s) (hfit : msgSize L S < 9223372036854775808)
    (hS : msgSize L S ≤ S.length) (hlen : msgSize L S ≤ s.length) :
    (recv_message L buf S s).status = Status.returned 0 ∧
    (recv_message L buf S s).buf.take (msgSize L S) = S.take (msgSize L S) ∧
    tiles 0 (recv_message L buf S s).calls (msgSize L S) ∧
    ∀ c ∈ (recv_message L buf S s).calls, 1 ≤ c.result ∧ c.result ≤ c.count := by
  obtain ⟨h1, h2, _, h4, h5⟩ := recv_run_complete L buf S s hp hfit hS hlen
  refine ⟨h1, ?_, h4, h5⟩
  rw [h2]
  exact store_take_head buf S _ _ (le_refl _) hS

theorem recv_message_chunked_read_witness :
    (recv_message demoLayout [0, 0, 0, 0, 0, 0] [7, 3, 10, 11, 12, 99]
      (List.replicate 5 oneByte)).status = Status.returned 0 ∧
    (recv_message demoLayout [0, 0, 0, 0, 0, 0] [7, 3, 10, 11, 12, 99]
      (List.replicate 5 oneByte)).buf.take 5 = [7, 3, 10, 11, 12] := by
  have h := recv_message_chunked_read demoLayout [0, 0, 0, 0, 0, 0] [7, 3, 10, 11, 12, 99]
    (List.replicate 5 oneByte) (chunked_replicate_oneByte 5) (by decide) (by decide) (by decide)
  exact ⟨h.1, h.2.1⟩

/-- C1 (round trip): for every message of `sizeof(header) + header.length`
bytes (lying in memory, fitting `ssize_t`, the receive buffer holding at least
as many bytes), if `send_message` writes it into a FIFO byte stream and
`recv_message` reads from that stream, with any chunking of the writes and of
the reads into positive short transfers, both return 0 and the first
`sizeof(header) + header.length` bytes of the receive buffer equal those of
the message: same header, same body. -/
theorem send_recv_round_trip (L : Layout) (msg buf : List Byte) (ws rs : Script)
    (hw : Chunked ws) (hr : Chunked rs) (hfit : msgSize L msg < 9223372036854775808)
    (hmem : msgSize L msg ≤ msg.length) (hbuf : msgSize L msg ≤ buf.length)
    (hwlen : msgSize L msg ≤ ws.length) (hrlen : msgSize L msg ≤ rs.length) :
    (send_message L msg ws).status = Status.returned 0 ∧
    (recv_message L buf (send_message L msg ws).sent rs).status = Status.returned 0 ∧
    (recv_message L buf (send_message L msg ws).sent rs).buf.take (msgSize L msg) =
      msg.take (msgSize L msg) ∧
    (recv_message L buf (send_message L msg ws).sent rs).buf.length = buf.length := by
  obtain ⟨h1, h2, h3, _, _⟩ := send_run_complete L msg ws hw hfit hmem hwlen
  have hH : L.hdrSize ≤ msgSize L msg := by unfold msgSize; omega
  have hsize : msgSize L (send_message L msg ws).sent = msgSize L msg := by
    unfold msgSize
    rw [h2, List.take_take, Nat.min_eq_left hH]
  have hS : msgSize L (send_message L msg ws).sent ≤ (send_message L msg ws).sent.length := by
    rw [hsize, h3]
  obtain ⟨g1, g2, _, _, _⟩ := recv_run_complete L buf (send_message L msg ws).sent rs hr
    (by rw [hsize]; exact hfit) hS (by rw [hsize]; exact hrlen)
  refine ⟨h1, g1, ?_, ?_⟩
  · rw [g2, hsize, store_take_head buf _ _ _ (le_refl _) (by rw [h3]), h2, List.take_take,
      Nat.min_self]
  · rw [g2, hsize, store_zero, List.length_append, List.length_take, List.length_drop, h3]
    omega

theorem send_recv_round_trip_witness :
    (send_message demoLayout [7, 3, 10, 11, 12] [upTo 2, oneByte, allBytes, oneByte, oneByte]).status
      = Status.returned 0 ∧
    (recv_message demoLayout [0, 0, 0, 0, 0, 0]
      (send_message demoLayout [7, 3, 10, 11, 12]
        [upTo 2, oneByte, allBytes, oneByte, oneByte]).sent
      (List.replicate 5 oneByte)).buf.take 5 = [7, 3, 10, 11, 12] := by
  have h := send_recv_round_trip demoLayout [7, 3, 10, 11, 12] [0, 0, 0, 0, 0, 0]
    [upTo 2, oneByte, allBytes, oneByte, oneByte] (List.replicate 5 oneByte)
    (chunked_cons (upTo_chunked 2 (by decide)) (chunked_cons oneByte_chunked
      (chunked_cons allBytes_chunked (chunked_cons oneByte_chunked
        (chunked_cons oneByte_chunked chunked_nil)))))
    (chunked_replicate_oneByte 5) (by decide) (by decide) (by decide) (by decide) (by decide)
  exact ⟨h.1, h.2.2.1⟩

/-- C2, refuted as stated: a two-byte header declares `length = 3` while the
three-byte buffer leaves room for one body byte; `recv_message` does not fail:
it issues the body read of 3 bytes at offset 2, returns 0, and the bytes
stored reach offset 5, past the end of the buffer. -/
theorem recv_message_oversized_counterexample :
    demoLayout.length ([7, 3, 10, 11, 12, 99].take demoLayout.hdrSize) = 3 ∧
    [0, 0, 0].length - demoLayout.hdrSize = 1 ∧
    recv_message demoLayout [0, 0, 0] [7, 3, 10, 11, 12, 99] [allBytes, allBytes] =
      ⟨Status.returned 0, [7, 3, 10, 11, 12], [99], [⟨0, 2, 2, 0⟩, ⟨2, 3, 3, 0⟩]⟩ := by
  decide

/-- C2 (amended): `recv_message` has no oversized-body check.  For every
stream that begins with a header whose `length` exceeds the body capacity of
the buffer, followed by that many body bytes, read with positive short
transfers, it issues a body read at offset `sizeof(header)` requesting
`length` bytes, returns 0, and the bytes stored reach `sizeof(header) +
length`, past the end of the buffer.  The only values `recv_message` ever
returns are 0 and -1: there is no distinct oversized-body error. -/
theorem recv_message_no_oversized_guard (L : Layout) (buf S : List Byte) (s : Script)
    (hp : Chunked s) (hfit : msgSize L S < 9223372036854775808)
    (hS : msgSize L S ≤ S.length) (hlen : msgSize L S ≤ s.length)
    (hcap : buf.length - L.hdrSize < L.length (S.take L.hdrSize)) :
    (recv_message L buf S s).status = Status.returned 0 ∧
    (∃ c ∈ (recv_message L buf S s).calls,
      c.off = L.hdrSize ∧ c.count = L.length (S.take L.hdrSize)) ∧
    (recv_message L buf S s).buf.length = msgSize L S ∧
    buf.length < (recv_message L buf S s).buf.length ∧
    ∀ (s2 : Script) (v : Int),
      (recv_message L buf S s2).status = Status.returned v → v = 0 ∨ v = -1 := by
  obtain ⟨h1, h2, _, _, _⟩ := recv_run_complete L buf S s hp hfit hS hlen
  have hT : buf.length < msgSize L S := by unfold msgSize; omega
  have hl : (recv_message L buf S s).buf.length = msgSize L S := by
    rw [h2, store_zero, List.length_append, List.length_drop, List.length_take]
    omega
  refine ⟨h1, ?_, hl, by omega, fun s2 v => recv_status_values L buf S s2 v⟩
  rw [recv_message_skel L buf S s (chunked_bounded hp) hfit hS]
  exact recv_skel_body_call L buf S s hp hlen (by omega)

theorem recv_message_no_oversized_guard_witness :
    (recv_message demoLayout [0, 0, 0] [7, 3, 10, 11, 12, 99]
      (List.replicate 5 oneByte)).status = Status.returned 0 ∧
    [0, 0, 0].length < (recv_message demoLayout [0, 0, 0] [7, 3, 10, 11, 12, 99]
      (List.replicate 5 oneByte)).buf.length := by
  have h := recv_message_no_oversized_guard demoLayout [0, 0, 0] [7, 3, 10, 11, 12, 99]
    (List.replicate 5 oneByte) (chunked_replicate_oneByte 5) (by decide) (by decide)
    (by decide) (by decide)
  exact ⟨h.1, h.2.2.2.1⟩

/-- C8 (zero-length body): for every stream whose header declares
`length == 0`, read with a primitive that never delivers more than requested,
every read `recv_message` issues lies before the end of the header (offset
below `sizeof(header)`, requesting the rest of the header): no body-phase read
is attempted; it returns 0 exactly when the reads have delivered
`sizeof(header)` bytes, and the stream keeps everything after the bytes
delivered.  With positive short transfers it does return 0, leaving the
bytes after the header in the stream. -/
theorem recv_message_zero_length (L : Layout) (buf S : List Byte) (s : Script)
    (hb : Bounded s) (hH : L.hdrSize < 9223372036854775808) (hS : L.hdrSize ≤ S.length)
    (hz : L.length (S.take L.hdrSize) = 0) :
    (∀ c ∈ (recv_message L buf S s).calls,
      ∃ p : Nat, c.off = p ∧ p < L.hdrSize ∧ c.count = L.hdrSize - p) ∧
    ((recv_message L buf S s).status = Status.returned 0 ↔
      accepted (recv_message L buf S s).calls = L.hdrSize) ∧
    (recv_message L buf S s).stream = S.drop (accepted (recv_message L buf S s).calls) ∧
    (Chunked s → L.hdrSize ≤ s.length →
      (recv_message L buf S s).status = Status.returned 0 ∧
      (recv_message L buf S s).stream = S.drop L.hdrSize) := by
  have hT : msgSize L S = L.hdrSize := by unfold msgSize; omega
  rw [recv_message_skel L buf S s hb (by omega) (by omega)]
  obtain ⟨b, _, ht, _, hstream, hdone, hnot, hph, hzero⟩ := recv_skel_facts L buf S s hb
  have hacc := tiles_accepted _ _ _ ht
  simp only [Nat.zero_add] at hacc
  rw [hT] at hdone hnot
  refine ⟨?_, ?_, by rw [hacc]; exact hstream, ?_⟩
  · intro c hc
    obtain ⟨p, h1, h2⟩ := hzero hz c hc
    obtain ⟨q, g1, g2⟩ := hph c hc
    have hpq : p = q := by omega
    subst hpq
    rcases g2 with g2 | g2
    · exact ⟨p, h1, h2, g2.2.1⟩
    · omega
  · constructor
    · intro h; rw [hacc]; exact hdone h
    · intro h
      by_contra hne
      have := hnot hne
      omega
  · intro hp hlen
    have hst := (recv_skel_chunked L buf S s hp (by omega)).1
    refine ⟨hst, ?_⟩
    rw [hstream, hdone hst]

theorem recv_message_zero_length_witness :
    (recv_message demoLayout [0, 0, 0] [7, 0, 10, 11] [oneByte, eintr, allBytes, allBytes]).calls =
      [⟨0, 2, 1, 0⟩, ⟨1, 1, -1, EINTR⟩, ⟨1, 1, 1, 0⟩] ∧
    ((recv_message demoLayout [0, 0, 0] [7, 0, 10, 11]
        [oneByte, eintr, allBytes, allBytes]).status = Status.returned 0 ↔
      accepted (recv_message demoLayout [0, 0, 0] [7, 0, 10, 11]
        [oneByte, eintr, allBytes, allBytes]).calls = 2) ∧
    (recv_message demoLayout [0, 0, 0] [7, 0, 10, 11]
      [oneByte, eintr, allBytes, allBytes]).stream = [10, 11] := by
  have h := recv_message_zero_length demoLayout [0, 0, 0] [7, 0, 10, 11]
    [oneByte, eintr, allBytes, allBytes]
    (bounded_cons (fun c hc => (oneByte_chunked c hc).2) (bounded_cons eintr_bounded
      (bounded_cons (fun c hc => (allBytes_chunked c hc).2)
        (bounded_cons (fun c hc => (allBytes_chunked c hc).2) bounded_nil))))
    (by decide) (by decide) (by decide)
  refine ⟨by decide, h.2.1, ?_⟩
  rw [h.2.2.1]
  decide

/-- C9 (exact consumption): with a read primitive that never delivers more
than the requested count, every read issued by `recv_message` requests exactly
the bytes its phase still misses (`sizeof(header) - received` below the end of
the header, `sizeof(header) + length - received` from there on) and stays
within its phase, so the header phase never consumes body bytes; the reads are
adjacent from offset 0, the stream keeps everything after the bytes delivered,
and a run that returns 0 has consumed exactly `sizeof(header) +
header.length` bytes, the bytes after them staying in the stream. -/
theorem recv_message_exact_consumption (L : Layout) (buf S : List Byte) (s : Script)
    (hb : Bounded s) (hfit : msgSize L S < 9223372036854775808)
    (hS : msgSize L S ≤ S.length) :
    (∀ c ∈ (recv_message L buf S s).calls, phaseCall L.hdrSize (msgSize L S) c) ∧
    tiles 0 (recv_message L buf S s).calls (accepted (recv_message L buf S s).calls) ∧
    accepted (recv_message L buf S s).calls ≤ msgSize L S ∧
    (recv_message L buf S s).stream = S.drop (accepted (recv_message L buf S s).calls) ∧
    ((recv_message L buf S s).status = Status.returned 0 →
      accepted (recv_message L buf S s).calls = msgSize L S ∧
      (recv_message L buf S s).stream = S.drop (msgSize L S)) := by
  rw [recv_message_skel L buf S s hb hfit hS]
  obtain ⟨b, hle, ht, _, hstream, hdone, _, hph, _⟩ := recv_skel_facts L buf S s hb
  have hacc := tiles_accepted _ _ _ ht
  simp only [Nat.zero_add] at hacc
  rw [hacc]
  refine ⟨hph, ht, hle, hstream, ?_⟩
  intro h
  have := hdone h
  subst this
  exact ⟨rfl, hstream⟩

theorem recv_message_exact_consumption_witness :
    accepted (recv_message demoLayout [0, 0, 0, 0, 0, 0] [7, 3, 10, 11, 12, 99, 98]
      [oneByte, allBytes, eintr, upTo 2, allBytes, allBytes]).calls = 5 ∧
    (recv_message demoLayout [0, 0, 0, 0, 0, 0] [7, 3, 10, 11, 12, 99, 98]
      [oneByte, allBytes, eintr, upTo 2, allBytes, allBytes]).stream = [99, 98] := by
  have h := recv_message_exact_consumption demoLayout [0, 0, 0, 0, 0, 0]
    [7, 3, 10, 11, 12, 99, 98] [oneByte, allBytes, eintr, upTo 2, allBytes, allBytes]
    (bounded_cons (fun c hc => (oneByte_chunked c hc).2)
      (bounded_cons (fun c hc => (allBytes_chunked c hc).2) (bounded_cons eintr_bounded
        (bounded_cons (fun c hc => (upTo_chunked 2 (by decide) c hc).2)
          (bounded_cons (fun c hc => (allBytes_chunked c hc).2)
            (bounded_cons (fun c hc => (allBytes_chunked c hc).2) bounded_nil))))))
    (by decide) (by decide)
  exact h.2.2.2.2 (by decide)

/-- C10 (termination and loop invariant of `send_message`): with a write
primitive that never accepts more than the requested count, every call is
issued with `0 <= bytes_sent < total_size` and requests `total_size -
bytes_sent > 0` bytes, the accepted ranges are adjacent from 0 and
`bytes_sent` never exceeds `total_size`; at most `total_size` calls are not
interrupted, and once the script answers `total_size` calls beyond the
interrupted ones `send_message` has returned.  A primitive that reports
`EINTR` on every call is retried at the same position for as many calls as
the script answers: there is no retry limit. -/
theorem send_message_terminates (L : Layout) (msg : List Byte) (s : Script)
    (hb : Bounded s) (hfit : msgSize L msg < 9223372036854775808) :
    (∀ c ∈ (send_message L msg s).calls, ∃ p : Nat, c.off = p ∧ p < msgSize L msg ∧
      c.count = msgSize L msg - p ∧ 0 < c.count ∧ c.result ≤ c.count) ∧
    tiles 0 (send_message L msg s).calls (accepted (send_message L msg s).calls) ∧
    accepted (send_message L msg s).calls ≤ msgSize L msg ∧
    (completed (send_message L msg s).calls).length ≤ msgSize L msg ∧
    (msgSize L msg + ((send_message L msg s).calls.filter (fun c => c.interrupted)).length
        ≤ s.length →
      (send_message L msg s).status = Status.returned 0 ∨
      (send_message L msg s).status = Status.returned (-1)) ∧
    (0 < msgSize L msg → ∀ n : Nat,
      send_message L msg (List.replicate n eintr) =
        ⟨Status.pending 0 (msgSize L msg), [],
          List.replicate n ⟨0, msgSize L msg, -1, EINTR⟩⟩) := by
  have hp := skel_pos_le (msgSize L msg) s 0 hb (Nat.zero_le _)
  have ht := skel_tiles (msgSize L msg) s 0
  have hacc := tiles_accepted _ _ _ ht
  simp only [Nat.zero_add] at hacc
  have hcomp := skel_completed (msgSize L msg) s 0 hb (Nat.zero_le _)
  have hexit := skel_exit_done (msgSize L msg) s 0
  have hlen := skel_calls_length (msgSize L msg) s 0
  have hsplit := calls_split (skel (msgSize L msg) 0 s).calls
  refine ⟨?_, ?_, ?_, ?_, ?_, ?_⟩
  · rw [send_message_skel L msg s hb hfit]
    intro c hc
    obtain ⟨p, h1, _, h3, h4, _⟩ := skel_phase (msgSize L msg) s 0 hb c hc
    exact ⟨p, h1, h3, h4, by omega, skel_calls_bounded _ s 0 hb c hc⟩
  · rw [send_message_skel L msg s hb hfit]
    simp only [send_skel, hacc]
    exact ht
  · rw [send_message_skel L msg s hb hfit]
    simp only [send_skel, hacc]
    exact hp.2
  · rw [send_message_skel L msg s hb hfit]
    simp only [send_skel]
    cases hx : (skel (msgSize L msg) 0 s).exit with
    | done => simp only [hx] at hcomp; simp at hcomp; omega
    | failed =>
      have := hexit.2 (by rw [hx]; simp)
      simp only [hx, if_true] at hcomp
      omega
    | starved => simp only [hx] at hcomp; simp at hcomp; omega
  · rw [send_message_skel L msg s hb hfit]
    simp only [send_skel]
    intro hn
    cases hx : (skel (msgSize L msg) 0 s).exit with
    | done => left; rfl
    | failed => right; rfl
    | starved =>
      exfalso
      have h1 := hlen.2 hx
      have h2 := hexit.2 (by rw [hx]; simp)
      simp only [hx] at hcomp
      simp at hcomp
      omega
  · intro hpos n
    rw [send_message_skel L msg _ (bounded_replicate_eintr n) hfit]
    simp [send_skel, skel_eintr _ hpos n, exit_status]

theorem send_message_terminates_witness :
    (completed (send_message demoLayout [7, 3, 10, 11, 12]
      [eintr, oneByte, eintr, eintr, allBytes]).calls).length ≤ 5 ∧
    (send_message demoLayout [7, 3, 10, 11, 12] [eintr, eintr, eintr]).status =
      Status.pending 0 5 := by
  have h := send_message_terminates demoLayout [7, 3, 10, 11, 12]
    [eintr, oneByte, eintr, eintr, allBytes]
    (bounded_cons eintr_bounded (bounded_cons (fun c hc => (oneByte_chunked c hc).2)
      (bounded_cons eintr_bounded (bounded_cons eintr_bounded
        (bounded_cons (fun c hc => (allBytes_chunked c hc).2) bounded_nil)))))
    (by decide)
  refine ⟨h.2.2.2.1, ?_⟩
  have h3 := h.2.2.2.2.2 (by decide) 3
  simp only [List.replicate] at h3
  rw [h3]
  rfl

/-- C5 (interrupt resilience): for `send_message` and `recv_message` alike,
with any primitive.  Inserting interrupted calls (`-1` with `errno == EINTR`)
anywhere into a script leaves the status (so a return value 0 stays 0), the
bytes transferred (bytes sent; buffer and rest of the stream) and the
sequence of calls that were not interrupted unchanged: no byte is duplicated
or skipped.  At any point where a call with offset `off` and count `count` is
due, an answer `-1` with `errno == EINTR` leaves the progress unchanged and
the same call, with the same offset and count, is due next. -/
theorem interrupt_resilience (L : Layout) (msg buf S : List Byte) (s s2 : Script)
    (h : EintrInserted s s2) :
    ((send_message L msg s2).status = (send_message L msg s).status ∧
      (send_message L msg s2).sent = (send_message L msg s).sent ∧
      completed (send_message L msg s2).calls = completed (send_message L msg s).calls) ∧
    ((recv_message L buf S s2).status = (recv_message L buf S s).status ∧
      (recv_message L buf S s2).buf = (recv_message L buf S s).buf ∧
      (recv_message L buf S s2).stream = (recv_message L buf S s).stream ∧
      completed (recv_message L buf S s2).calls = completed (recv_message L buf S s).calls) ∧
    (∀ (pre : Script) (f : Nat → Resp) (off : Int) (count : Nat),
      (send_message L msg pre).status = Status.pending off count →
      (f count).result = -1 → (f count).errno = EINTR →
      send_message L msg (pre ++ [f]) =
        ⟨Status.pending off count, (send_message L msg pre).sent,
          (send_message L msg pre).calls ++ [⟨off, count, -1, EINTR⟩]⟩) ∧
    (∀ (pre : Script) (f : Nat → Resp) (off : Int) (count : Nat),
      (recv_message L buf S pre).status = Status.pending off count →
      (f count).result = -1 → (f count).errno = EINTR →
      recv_message L buf S (pre ++ [f]) =
        ⟨Status.pending off count, (recv_message L buf S pre).buf,
          (recv_message L buf S pre).stream,
          (recv_message L buf S pre).calls ++ [⟨off, count, -1, EINTR⟩]⟩) := by
  refine ⟨send_message_inserted L msg h, recv_message_inserted L buf S h, ?_, ?_⟩
  · intro pre f off count hpend h1 h2
    have := send_message_step L msg pre [f] off count Exit.starved ⟨off, count, -1, EINTR⟩ hpend
      (fun bs hlt hoff hcnt => by
        subst hoff hcnt
        rw [send_loop_step_intr msg _ bs f hlt h1 h2, h1, h2])
    simpa [exit_status] using this
  · intro pre f off count hpend h1 h2
    have := recv_message_step L buf S pre [f] off count Exit.starved ⟨off, count, -1, EINTR⟩ []
      (by simp) hpend
      (fun limit br bf st hlt hoff hcnt => by
        subst hoff hcnt
        rw [recv_loop_step_intr limit br bf st f hlt h1 h2, h1, h2])
    simpa [exit_status] using this

theorem interrupt_resilience_witness :
    (send_message demoLayout [7, 3, 10, 11, 12] [eintr, upTo 2, eintr, eintr, allBytes]).status =
      (send_message demoLayout [7, 3, 10, 11, 12] [upTo 2, allBytes]).status ∧
    (send_message demoLayout [7, 3, 10, 11, 12] [upTo 2, allBytes]).status =
      Status.returned 0 ∧
    (recv_message demoLayout [0, 0, 0, 0, 0] [7, 3, 10, 11, 12]
        [eintr, upTo 2, eintr, eintr, allBytes]).buf = [7, 3, 10, 11, 12] := by
  have h := interrupt_resilience demoLayout [7, 3, 10, 11, 12] [0, 0, 0, 0, 0]
    [7, 3, 10, 11, 12] [upTo 2, allBytes] [eintr, upTo 2, eintr, eintr, allBytes]
    (EintrInserted.ins (EintrInserted.keep (upTo 2) (EintrInserted.ins (EintrInserted.ins
      (EintrInserted.keep allBytes EintrInserted.nil)))))
  refine ⟨h.1.1, by decide, ?_⟩
  rw [h.2.1.2.1]
  decide

/-- C6 (end of stream and read errors): at any point where `recv_message` is
due to read (before the header is complete, or before the declared body is
complete), with offset `off` and count `count`, an answer 0 (whatever `errno`
holds, `EINTR` included) or an answer `-1` with `errno != EINTR` makes it
return -1 at once: that call is the last one issued, whatever the script
holds after it, and buffer and stream stay as the earlier reads left them.
In particular, with a header of positive size, a first read returning 0 makes
`recv_message` fail after that single call. -/
theorem recv_message_read_failure (L : Layout) (buf S : List Byte) (pre post : Script)
    (f : Nat → Resp) (off : Int) (count : Nat)
    (hpend : (recv_message L buf S pre).status = Status.pending off count)
    (hbad : (f count).result = 0 ∨ ((f count).result = -1 ∧ (f count).errno ≠ EINTR)) :
    recv_message L buf S (pre ++ f :: post) =
      ⟨Status.returned (-1), (recv_message L buf S pre).buf, (recv_message L buf S pre).stream,
        (recv_message L buf S pre).calls ++ [⟨off, count, (f count).result, (f count).errno⟩]⟩ ∧
    (0 < L.hdrSize → ∀ (e : Int) (post2 : Script),
      (recv_message L buf S (zero e :: post2)).status = Status.returned (-1) ∧
      (recv_message L buf S (zero e :: post2)).calls.length = 1) := by
  constructor
  · have := recv_message_step L buf S pre (f :: post) off count Exit.failed
      ⟨off, count, (f count).result, (f count).errno⟩ post (by simp) hpend
      (fun limit br bf st hlt hoff hcnt => by
        subst hoff hcnt
        rw [recv_loop_step_fail limit br bf st f post hlt hbad])
    simpa [exit_status] using this
  · intro hH e post2
    have h0 : toSize 0 < hdr_limit L buf := by
      simp only [toSize, hdr_limit]
      simpa using hH
    have := recv_loop_step_fail (hdr_limit L) 0 buf S (zero e) post2 h0 (Or.inl rfl)
    simp [recv_message, this, exit_status]

theorem recv_message_read_failure_witness :
    recv_message demoLayout [0, 0, 0, 0, 0] [7, 3, 10, 11, 12]
        ([allBytes, oneByte] ++ zero EINTR :: [allBytes, allBytes]) =
      ⟨Status.returned (-1), [7, 3, 10, 0, 0], [11, 12],
        [⟨0, 2, 2, 0⟩, ⟨2, 3, 1, 0⟩, ⟨3, 2, 0, EINTR⟩]⟩ := by
  have h := (recv_message_read_failure demoLayout [0, 0, 0, 0, 0] [7, 3, 10, 11, 12]
    [allBytes, oneByte] [allBytes, allBytes] (zero EINTR) 3 2 (by decide) (Or.inl rfl)).1
  rw [h]
  decide

/-- C7 (send failure without rollback): at any point where `send_message` is
due to write, with offset `off` and count `count`, an answer 0 or an answer
`-1` with `errno != EINTR` makes it return -1 at once: that call is the last
one issued, whatever the script holds after it, and the bytes accepted by the
earlier writes stay sent.  When those writes never accepted more than
requested, the bytes sent are a proper initial segment of the `sizeof(header) +
header.length` bytes of the message.  Conversely `send_message` returns 0
only when the accepted byte counts sum to at least `sizeof(header) +
header.length`. -/
theorem send_message_write_failure (L : Layout) (msg : List Byte) (pre post : Script)
    (f : Nat → Resp) (off : Int) (count : Nat)
    (hfit : msgSize L msg < 9223372036854775808) (hmem : msgSize L msg ≤ msg.length)
    (hpend : (send_message L msg pre).status = Status.pending off count)
    (hbad : (f count).result = 0 ∨ ((f count).result = -1 ∧ (f count).errno ≠ EINTR)) :
    send_message L msg (pre ++ f :: post) =
      ⟨Status.returned (-1), (send_message L msg pre).sent,
        (send_message L msg pre).calls ++ [⟨off, count, (f count).result, (f count).errno⟩]⟩ ∧
    (Bounded pre → ∃ k : Nat, k < msgSize L msg ∧
      (send_message L msg (pre ++ f :: post)).sent = (msg.take (msgSize L msg)).take k ∧
      (send_message L msg (pre ++ f :: post)).sent.length = k) ∧
    (∀ s : Script, (send_message L msg s).status = Status.returned 0 →
      msgSize L msg ≤ accepted (send_message L msg s).calls) := by
  have hstep := send_message_step L msg pre (f :: post) off count Exit.failed
      ⟨off, count, (f count).result, (f count).errno⟩ hpend
      (fun bs hlt hoff hcnt => by
        subst hoff hcnt
        rw [send_loop_step_fail msg _ bs f post hlt hbad])
  simp only [exit_status] at hstep
  refine ⟨hstep, ?_, fun s hs => send_returned_accepted L msg s hfit hs⟩
  intro hb
  rw [hstep]
  simp only
  rw [send_message_skel L msg pre hb hfit] at hpend ⊢
  obtain ⟨b, _, _, hsent, _, hnot, _⟩ := send_skel_facts L msg pre hb
  have hlt := hnot (by rw [hpend]; simp)
  refine ⟨b, hlt, ?_, ?_⟩
  · rw [hsent, List.take_take, Nat.min_eq_left (by omega)]
  · rw [hsent, List.length_take]
    omega

theorem send_message_write_failure_witness :
    send_message demoLayout [7, 3, 10, 11, 12] ([upTo 2, oneByte] ++ fault 32 :: [allBytes]) =
      ⟨Status.returned (-1), [7, 3, 10],
        [⟨0, 5, 2, 0⟩, ⟨2, 3, 1, 0⟩, ⟨3, 2, -1, 32⟩]⟩ := by
  have h := (send_message_write_failure demoLayout [7, 3, 10, 11, 12] [upTo 2, oneByte]
    [allBytes] (fault 32) 3 2 (by decide) (by decide) (by decide)
    (Or.inr ⟨rfl, by decide⟩)).1
  rw [h]
  decide

end Holden
